import Mathlib

set_option linter.all false

/-!
# Verification of the wr job-queue utility and submission code

A shallow embedding, in Lean 4, of the pure computational content of three
source files of the `wr` workflow manager repository:

* `cmd/add.go` — the `add` command: per-line parsing of job submissions,
  flag/column validation, dependency-column decoding (`colsToDeps`);
* the jobqueue utility file — `stdFilter`, `prefixSuffixSaver`, `byteKey`,
  `compress`/`decompress`, `envOverride`, `rmEmptyDirs`.

Byte slices are modelled as `List Nat`, Go strings as Lean `String` or
`List Nat` as appropriate, machine integers as `Int`/`Nat` with explicit
`% 2^w` where Go performs a truncating conversion, and fallible code as
`Except String`. The filesystem (for `rmEmptyDirs`) is a list of directory
paths, each path a list of segments.
-/

/-! ## Byte-level helpers (bytes.Split, constants used by stdFilter) -/

/-- The carriage-return byte; in the source, `cr = []byte("\r")`. -/
def crByte : Nat := 13

/-- The line-feed byte; in the source, `lf = []byte("\n")`. -/
def lfByte : List Nat := [10]

/-- The bytes of `"[...]\n"`; in the source, `ellipses = []byte("[...]\n")`. -/
def ellipses : List Nat := [91, 46, 46, 46, 93, 10]

/-- `bytes.Split(p, sep)` for a single-byte separator: the subslices of `p`
between occurrences of `sep`, the separator itself removed.  Always returns
at least one (possibly empty) piece. -/
def splitSep {α : Type} [DecidableEq α] (sep : α) : List α → List (List α)
  | [] => [[]]
  | b :: rest =>
    match splitSep sep rest with
    | [] => [[]]
    | first :: others =>
      if b = sep then [] :: first :: others
      else (b :: first) :: others

theorem splitSep_ne_nil {α : Type} [DecidableEq α] (sep : α) (p : List α) :
    splitSep sep p ≠ [] := by
  induction p with
  | nil => simp [splitSep]
  | cons b rest ih =>
    simp only [splitSep]
    match h : splitSep sep rest with
    | [] => exact absurd h ih
    | first :: others =>
      by_cases hb : b = sep <;> simp [hb]

theorem splitSep_of_not_mem {α : Type} [DecidableEq α] (sep : α) (p : List α) (h : sep ∉ p) :
    splitSep sep p = [p] := by
  induction p with
  | nil => rfl
  | cons b rest ih =>
    simp only [List.mem_cons, not_or] at h
    simp only [splitSep, ih h.2]
    simp [Ne.symm h.1]

theorem splitSep_singleton {α : Type} [DecidableEq α] (sep : α) (p q : List α)
    (h : splitSep sep p = [q]) : q = p := by
  induction p generalizing q with
  | nil => simp [splitSep] at h; exact h
  | cons b rest ih =>
    simp only [splitSep] at h
    match hs : splitSep sep rest with
    | [] => exact absurd hs (splitSep_ne_nil sep rest)
    | first :: others =>
      rw [hs] at h
      by_cases hb : b = sep
      · simp [hb] at h
      · simp only [if_neg hb] at h
        obtain ⟨h1, h2⟩ := List.cons.injEq .. ▸ h
        subst h1
        have : first = rest := by
          apply ih
          rw [hs, h2]
        rw [this]

/-! ## C2: stdFilter -/

/-- The body of the `stdFilter` read loop for one chunk `p` returned by
`reader.ReadBytes('\n')`: `lines := bytes.Split(p, cr)`; write `lines[0]`;
if `len(lines) > 2` also write a line feed, then (if `len(lines) > 3`) the
ellipses marker, then `lines[len(lines)-2]` and a line feed. -/
def stdFilterChunk (p : List Nat) : List Nat :=
  (splitSep crByte p).headD [] ++
    (if (splitSep crByte p).length > 2 then
      lfByte ++ (if (splitSep crByte p).length > 3 then ellipses else []) ++
        (splitSep crByte p).getD ((splitSep crByte p).length - 2) [] ++ lfByte
    else [])

/-- The chunks successively returned by `reader.ReadBytes('\n')` over a whole
input: the input split after every line-feed byte, a trailing unterminated
(possibly empty) chunk included, which is how the loop in `stdFilter`
consumes its reader before it stops at the read error. -/
def chunksLF : List Nat → List (List Nat)
  | [] => [[]]
  | b :: rest =>
    if b = 10 then [b] :: chunksLF rest
    else
      match chunksLF rest with
      | [] => [[b]]
      | c :: cs => (b :: c) :: cs

/-- The total bytes `stdFilter` writes to its output writer for a given
input stream: each chunk read by `ReadBytes('\n')` is transformed by the
loop body in turn. -/
def stdFilter (input : List Nat) : List Nat :=
  ((chunksLF input).map stdFilterChunk).flatten

/-- What claim C2 asserts the filter writes for one chunk: chunks with no
carriage return pass through unchanged; for a chunk containing carriage
returns, exactly the first and the last of its carriage-return-separated
lines, with the ellipsis marker when more than two lines are elided. -/
def claimC2Chunk (p : List Nat) : List Nat :=
  if (splitSep crByte p).length = 1 then p
  else
    (splitSep crByte p).headD [] ++
      (if (splitSep crByte p).length > 4 then ellipses else []) ++
      (splitSep crByte p).getLastD []

/-- The carriage-return-terminated lines of a chunk: every piece of the
carriage-return split except the final piece (the text after the last
carriage return, which is not itself terminated by one). -/
def crTermLines (p : List Nat) : List (List Nat) :=
  (splitSep crByte p).dropLast

theorem dropLast_getLastD_eq_getD {α : Type} (l : List α) (a b : α) (d : α) :
    (a :: b :: l).dropLast.getLastD d = (a :: b :: l).getD ((a :: b :: l).length - 2) d := by
  induction l generalizing a b d with
  | nil => rfl
  | cons c cs ih =>
    have hstep : (a :: b :: c :: cs).dropLast = a :: (b :: c :: cs).dropLast := by
      simp [List.dropLast]
    rw [hstep, List.getLastD_cons]
    have hne : (b :: c :: cs).dropLast = b :: (c :: cs).dropLast := by
      simp [List.dropLast]
    have h1 := ih b c a
    have h2 := ih b c d
    have hlen : (b :: c :: cs).length - 2 < (b :: c :: cs).length := by
      simp; omega
    rw [List.getD_eq_getElem _ _ hlen] at h1 h2
    rw [h1]
    have : (a :: b :: c :: cs).length - 2 = ((b :: c :: cs).length - 2) + 1 := by
      simp
    rw [this]
    have hlen2 : ((b :: c :: cs).length - 2) + 1 < (a :: b :: c :: cs).length := by
      simp
    rw [List.getD_eq_getElem _ _ hlen2]
    simp

theorem splitSep_two_le_of_mem {α : Type} [DecidableEq α] (sep : α) :
    ∀ p : List α, sep ∈ p → 2 ≤ (splitSep sep p).length := by
  intro p
  induction p with
  | nil => intro h; simp at h
  | cons b rest ih =>
    intro h
    simp only [splitSep]
    match hs : splitSep sep rest with
    | [] => exact absurd hs (splitSep_ne_nil _ _)
    | first :: others =>
      by_cases hb : b = sep
      · simp [hb]
      · have hr : sep ∈ rest := by
          rcases List.mem_cons.mp h with h1 | h1
          · exact absurd h1.symm hb
          · exact h1
        have := ih hr
        rw [hs] at this
        simp only [if_neg hb]
        simpa using this

theorem crTermLines_length_pos_of_mem (p : List Nat) (h : crByte ∈ p) :
    crTermLines p ≠ [] := by
  unfold crTermLines
  have h2 := splitSep_two_le_of_mem crByte p h
  match hs : splitSep crByte p with
  | [] => exact absurd hs (splitSep_ne_nil _ _)
  | [a] => rw [hs] at h2; simp at h2
  | a :: b :: rest => simp [List.dropLast]

theorem crTermLines_eq_nil_of_not_mem (p : List Nat) (h : crByte ∉ p) :
    crTermLines p = [] := by
  unfold crTermLines
  rw [splitSep_of_not_mem _ _ h]
  rfl

theorem stdFilterChunk_eq_crTermLines (p : List Nat) :
    stdFilterChunk p =
      if crByte ∈ p then
        (if (crTermLines p).length = 1 then (crTermLines p).headD []
         else
           (crTermLines p).headD [] ++ lfByte ++
             (if 2 < (crTermLines p).length then ellipses else []) ++
             (crTermLines p).getLastD [] ++ lfByte)
      else p := by
  by_cases hmem : crByte ∈ p
  · simp only [if_pos hmem]
    have hne := crTermLines_length_pos_of_mem p hmem
    unfold stdFilterChunk crTermLines at *
    match hs : splitSep crByte p with
    | [] => exact absurd hs (splitSep_ne_nil _ _)
    | [a] => rw [hs] at hne; simp at hne
    | [a, b] => simp [List.dropLast]
    | a :: b :: c :: cs =>
      have hdl : ((a :: b :: c :: cs : List (List Nat))).dropLast =
          a :: b :: (c :: cs).dropLast := by
        simp [List.dropLast]
      have hlast := dropLast_getLastD_eq_getD (c :: cs) a b ([] : List Nat)
      rw [← hlast]
      rw [if_pos (show ((a :: b :: c :: cs : List (List Nat))).length > 2 by simp)]
      by_cases hcs : cs = []
      · subst hcs
        simp [List.dropLast, List.append_assoc]
      · have hpos : 0 < cs.length := List.length_pos.mpr hcs
        rw [if_pos (show ((a :: b :: c :: cs : List (List Nat))).length > 3 by
          simp only [List.length_cons]; omega)]
        rw [hdl]
        rw [if_neg (show ¬ ((a :: b :: (c :: cs).dropLast : List (List Nat))).length = 1 by
          simp)]
        rw [if_pos (show 2 < ((a :: b :: (c :: cs).dropLast : List (List Nat))).length by
          simp only [List.length_cons, List.length_dropLast]
          omega)]
        simp [List.append_assoc]
  · simp only [if_neg hmem]
    have h0 := crTermLines_eq_nil_of_not_mem p hmem
    unfold crTermLines at h0
    unfold stdFilterChunk
    rw [splitSep_of_not_mem _ _ hmem]
    simp

/-- C2 (amended): over any input stream, for every chunk read by
`ReadBytes('\n')`, `stdFilter` passes chunks containing no carriage return
through unchanged; for a chunk that contains carriage returns it writes the
first of the carriage-return-terminated lines (the pieces of the chunk that
end in a carriage return) and — when there are at least two such lines — the
last of them, each followed by a line feed, with the ellipsis marker between
them when more than two carriage-return-terminated lines exist; the text
after the final carriage return is dropped. -/
theorem stdFilter_keeps_first_and_last_cr_line (input : List Nat) :
    stdFilter input =
      ((chunksLF input).map (fun p =>
        if crByte ∈ p then
          (if (crTermLines p).length = 1 then (crTermLines p).headD []
           else
             (crTermLines p).headD [] ++ lfByte ++
               (if 2 < (crTermLines p).length then ellipses else []) ++
               (crTermLines p).getLastD [] ++ lfByte)
        else p)).flatten := by
  unfold stdFilter
  have hfun : stdFilterChunk = (fun p =>
      if crByte ∈ p then
        (if (crTermLines p).length = 1 then (crTermLines p).headD []
         else
           (crTermLines p).headD [] ++ lfByte ++
             (if 2 < (crTermLines p).length then ellipses else []) ++
             (crTermLines p).getLastD [] ++ lfByte)
      else p) := funext stdFilterChunk_eq_crTermLines
  rw [hfun]

/-- C2 counterexample: for the input stream `"a\rb\n"` — a single
newline-terminated chunk containing a carriage return — the filter writes
only `"a"`; the last of the carriage-return-separated lines, `"b\n"`, is not
written at all, contradicting the claim as stated (`claimC2Chunk` is the
claimed output for that chunk). -/
theorem stdFilter_drops_last_cr_separated_line :
    crByte ∈ [97, 13, 98, 10] ∧
    stdFilter [97, 13, 98, 10] = [97] ∧
    (splitSep crByte [97, 13, 98, 10]).getLastD [] = [98, 10] ∧
    claimC2Chunk [97, 13, 98, 10] = [97, 98, 10] ∧
    stdFilter [97, 13, 98, 10] ≠ claimC2Chunk [97, 13, 98, 10] := by
  refine ⟨by decide, by decide, by decide, by decide, by decide⟩

/-! ## C4: dependency columns (colsToDeps and its even-length guard) -/

/-- A `jobqueue.Dependency`: either a command dependency, built by
`NewCmdDependency(cmd, cwd)`, or a dependency-group dependency, built by
`NewDepGroupDependency(depgroup)`. -/
inductive Dependency : Type
  | cmdDep (command : String) (cwd : String)
  | depGroup (group : String)
deriving DecidableEq

/-- `strings.Split(s, sep)` for the single-character separators the source
uses (tab, comma, space, equals sign): split the character list of `s` on
the separator character. -/
def strSplit (s : String) (sep : Char) : List String :=
  (splitSep sep s.toList).map String.mk

theorem strSplit_ne_nil (s : String) (sep : Char) : strSplit s sep ≠ [] := by
  unfold strSplit
  intro h
  exact splitSep_ne_nil sep s.toList (List.map_eq_nil_iff.mp h)

/-- `colsToDeps` from `cmd/add.go`: walk the columns two at a time; when the
second column of a pair is the literal `"groups"`, the first column is a
comma-separated list of dependency-group names, one group dependency each;
otherwise the pair is a (command, cwd) command dependency.  Both callers
check that the number of columns is even before calling (the Go loop indexes
`cols[i+1]` and would panic otherwise), so the one-column case below is
unreachable from `parseDeps`. -/
def colsToDeps : List String → List Dependency
  | [] => []
  | [_] => []
  | a :: b :: rest =>
    (if b = "groups" then (strSplit a ',').map Dependency.depGroup
     else [Dependency.cmdDep a b]) ++ colsToDeps rest

/-- The dependency-column handling shared by the two call sites in
`cmd/add.go` (the `--deps` flag at lines 176–183 and columns 12 onward at
lines 343–352): an odd number of columns dies with an error, otherwise the
columns are decoded by `colsToDeps`. -/
def parseDeps (cols : List String) : Except String (List Dependency) :=
  if cols.length % 2 ≠ 0 then
    Except.error "must have an even number of dependency columns"
  else Except.ok (colsToDeps cols)

/-- Claim-side description of one (command-slot, cwd-slot) pair, following
the words of claim C4. -/
def pairDeps (ab : String × String) : List Dependency :=
  if ab.2 = "groups" then (strSplit ab.1 ',').map Dependency.depGroup
  else [Dependency.cmdDep ab.1 ab.2]

/-- The consecutive pairs of a list (dropping an unpaired trailing element). -/
def toPairs {α : Type} : List α → List (α × α)
  | a :: b :: rest => (a, b) :: toPairs rest
  | _ => []

theorem colsToDeps_eq_pairs : ∀ cols : List String,
    colsToDeps cols = ((toPairs cols).map pairDeps).flatten
  | [] => rfl
  | [_] => rfl
  | a :: b :: rest => by
    simp only [colsToDeps, toPairs, List.map_cons, List.flatten_cons]
    rw [colsToDeps_eq_pairs rest]
    rfl

/-- C4: parsing the dependency columns of a submission rejects an odd number
of columns with an error; otherwise each consecutive pair whose second
element is the literal `"groups"` yields one dependency-group dependency per
comma-separated name in its first element, and every other pair yields
exactly one command dependency on that (command, cwd) pair. -/
theorem parseDeps_even_pairs (cols : List String) :
    (cols.length % 2 = 1 → ∃ e, parseDeps cols = Except.error e) ∧
    (cols.length % 2 = 0 →
      parseDeps cols = Except.ok (((toPairs cols).map pairDeps).flatten)) := by
  constructor
  · intro hodd
    refine ⟨"must have an even number of dependency columns", ?_⟩
    unfold parseDeps
    rw [if_pos (by omega)]
  · intro heven
    unfold parseDeps
    rw [if_neg (by omega)]
    rw [colsToDeps_eq_pairs]

/-- Witness for C4 at concrete inputs: one odd-length column list is
rejected, and a concrete even-length list containing both a group pair and a
command pair decodes as described. -/
theorem parseDeps_even_pairs_witness :
    (∃ e, parseDeps ["lone"] = Except.error e) ∧
    parseDeps ["g1,g2", "groups", "cmd1", "/tmp"] =
      Except.ok [Dependency.depGroup "g1", Dependency.depGroup "g2",
        Dependency.cmdDep "cmd1" "/tmp"] := by
  constructor
  · exact (parseDeps_even_pairs ["lone"]).1 (by decide)
  · rw [(parseDeps_even_pairs ["g1,g2", "groups", "cmd1", "/tmp"]).2 (by decide)]
    rfl

/-! ## C6: byteKey -/

/-- One lowercase hexadecimal digit, as printed by Go's `%x` verb. -/
def hexDigitChar (n : Nat) : Char :=
  if n < 10 then Char.ofNat (48 + n) else Char.ofNat (87 + n)

/-- Go's `fmt.Sprintf("%016x", v)` for a `uint64` value `v`: since
`v < 2^64` needs at most 16 hexadecimal digits, the zero-padded result is
exactly the 16 big-endian base-16 digits of `v`. -/
def hexPad16 (v : Nat) : List Char :=
  ((List.range 16).reverse).map (fun i => hexDigitChar (v / 16 ^ i % 16))

/-- `byteKey` from the jobqueue utility file, parametrized by the external
`farm.Hash128` function it calls (the farmhash library is a dependency, not
part of this repository; the parameter ranges over every possible pure hash,
its two `uint64` results modelled by reduction `% 2^64`):
`l, h := farm.Hash128(b); fmt.Sprintf("%016x%016x", l, h)`. -/
def byteKey (hash128 : List Nat → Nat × Nat) (b : List Nat) : List Char :=
  hexPad16 ((hash128 b).1 % 2 ^ 64) ++ hexPad16 ((hash128 b).2 % 2 ^ 64)

/-- The sixteen characters a lowercase hexadecimal rendering may contain. -/
def hexAlphabet : List Char :=
  "0123456789abcdef".toList

theorem hexDigitChar_mem_hexAlphabet (n : Nat) (h : n < 16) :
    hexDigitChar n ∈ hexAlphabet := by
  have : ∀ m : Fin 16, hexDigitChar m.val ∈ hexAlphabet := by decide
  exact this ⟨n, h⟩

theorem hexPad16_length (v : Nat) : (hexPad16 v).length = 16 := by
  simp [hexPad16]

theorem hexPad16_mem (v : Nat) (c : Char) (h : c ∈ hexPad16 v) : c ∈ hexAlphabet := by
  unfold hexPad16 at h
  rcases List.mem_map.mp h with ⟨i, _, hc⟩
  rw [← hc]
  exact hexDigitChar_mem_hexAlphabet _ (Nat.mod_lt _ (by norm_num))

/-- C6: the content-key function is deterministic — two evaluations on equal
byte slices yield the same key, whatever the underlying 128-bit hash — and
its result is always a 32-character string of lowercase hexadecimal digits. -/
theorem byteKey_deterministic_and_hex32 (hash128 : List Nat → Nat × Nat)
    (b b2 : List Nat) (heq : b = b2) :
    byteKey hash128 b = byteKey hash128 b2 ∧
    (byteKey hash128 b).length = 32 ∧
    ∀ c ∈ byteKey hash128 b, c ∈ hexAlphabet := by
  refine ⟨by rw [heq], ?_, ?_⟩
  · simp [byteKey, hexPad16_length]
  · intro c hc
    rcases List.mem_append.mp hc with h | h
    · exact hexPad16_mem _ _ h
    · exact hexPad16_mem _ _ h

/-- Witness for C6 at a concrete hash function and byte slice. -/
theorem byteKey_deterministic_and_hex32_witness :
    byteKey (fun l => (l.length, 3)) [7, 7] = byteKey (fun l => (l.length, 3)) [7, 7] ∧
    (byteKey (fun l => (l.length, 3)) [7, 7]).length = 32 ∧
    ∀ c ∈ byteKey (fun l => (l.length, 3)) [7, 7], c ∈ hexAlphabet :=
  byteKey_deterministic_and_hex32 (fun l => (l.length, 3)) [7, 7] [7, 7] rfl

/-! ## The `add` command (`cmd/add.go`): flags, per-line parsing, Jobs -/

/-- `strconv.Atoi`: optional sign, then decimal digits; empty input, a
non-digit, or a value outside the 64-bit signed range is an error. -/
def atoi (s : String) : Except String Int :=
  let cs := s.toList
  let signAndDigits : Bool × List Char :=
    match cs with
    | '+' :: rest => (false, rest)
    | '-' :: rest => (true, rest)
    | rest => (false, rest)
  let neg := signAndDigits.1
  let ds := signAndDigits.2
  if ds = [] then Except.error "invalid syntax"
  else if ds.all Char.isDigit then
    let mag : Int := ds.foldl (fun a c => a * 10 + (Int.ofNat (c.toNat - 48))) 0
    let v : Int := if neg then -mag else mag
    if v < -(2 ^ 63) ∨ 2 ^ 63 ≤ v then Except.error "value out of range"
    else Except.ok v
  else Except.error "invalid syntax"

/-- Go's conversion `uint8(v)` of an `int` value: truncation to the low
8 bits (two's complement), i.e. `v` modulo 256. -/
def uint8OfInt (v : Int) : Nat := (v % 256).toNat

/-- `filepath.Base`: empty path gives `"."`; otherwise trailing slashes are
removed, and everything up to and including the final slash is dropped; a
path of only slashes gives `"/"`. -/
def filepathBase (path : String) : String :=
  if path = "" then "."
  else
    let trimmed := path.toList.reverse.dropWhile (fun c => c = '/')
    if trimmed = [] then "/"
    else String.mk (trimmed.takeWhile (fun c => c ≠ '/')).reverse

/-- The option values of the `add` command after cobra flag parsing, the
`--memory` and `--time` strings already converted to megabytes and to a
duration (the conversions `bytefmt.ToMegabytes`/`time.ParseDuration` are
external libraries and happen, with their own `die` on error, before any of
the code modelled here).  `cmdDeps` holds the `--deps` value already split
on its literal `\t` marker, `[]` meaning the flag was not given. -/
structure AddFlags where
  cmdCwd : String
  reqGroup : String
  cmdMB : Int
  cmdDuration : Int
  cmdCPUs : Int
  cmdOvr : Int
  cmdPri : Int
  cmdRet : Int
  cmdRepGroup : String
  cmdDepGroups : String
  cmdDeps : List String
deriving DecidableEq

/-- The cobra defaults registered in `init()`: `--memory "1G"` (= 1024 MB),
`--time "1h"` (in nanoseconds), `--cpus 1`, `--override 0`, `--priority 0`,
`--retries 3`, `--report_grp "manually_added"`. -/
def defaultAddFlags : AddFlags :=
  ⟨"", "", 1024, 3600000000000, 1, 0, 0, 3, "manually_added", "", []⟩

/-- A `jobqueue.Job` as constructed by `jobqueue.NewJob` at the end of the
per-line loop: the values the `add` command hands over, the three `uint8`
arguments after Go's truncating conversion. -/
structure Job where
  cmd : String
  cwd : String
  rg : String
  mb : Int
  dur : Int
  cpus : Int
  override : Nat
  priority : Nat
  retries : Nat
  repGrp : String
  depGroups : List String
  deps : List Dependency
deriving DecidableEq

/-- The flag values plus the pre-loop derived defaults (`defaultDepGroups`,
`defaultDeps`). -/
structure AddDefaults where
  flags : AddFlags
  defaultDepGroups : List String
  defaultDeps : List Dependency
deriving DecidableEq

/-- The option-checking block at the top of `addCmd.Run` (lines 131–183):
default the report group, clamp `--cpus` to at least 1, range-check
`--override`, `--priority` and `--retries`, split `--dep_grps`, and check
and decode `--deps`. -/
def clampFlags (f : AddFlags) : AddFlags :=
  { f with
    cmdRepGroup := if f.cmdRepGroup = "" then "manually_added" else f.cmdRepGroup,
    cmdCPUs := if f.cmdCPUs < 1 then 1 else f.cmdCPUs }

def addPrepare (f : AddFlags) : Except String AddDefaults :=
  if (clampFlags f).cmdOvr < 0 ∨ (clampFlags f).cmdOvr > 2 then
    Except.error "--override must be in the range 0..2"
  else if (clampFlags f).cmdPri < 0 ∨ (clampFlags f).cmdPri > 255 then
    Except.error "--priority must be in the range 0..255"
  else if (clampFlags f).cmdRet < 0 ∨ (clampFlags f).cmdRet > 255 then
    Except.error "--retries must be in the range 0..255"
  else
    match (if (clampFlags f).cmdDeps = [] then Except.ok []
           else parseDeps (clampFlags f).cmdDeps) with
    | Except.error e => Except.error e
    | Except.ok dd =>
      Except.ok ⟨clampFlags f,
        (if (clampFlags f).cmdDepGroups = "" then [] else strSplit (clampFlags f).cmdDepGroups ','),
        dd⟩

/-- `cols[i]` guarded as the Go code guards it: the code only indexes
`cols[i]` after checking `colsn >= i+1`, so the default is never the value
actually used. -/
def colsGet (cols : List String) (i : Nat) : String := cols.getD i ""

/-- The cwd column (line 241): column 2 if present and nonempty, else the
`--cwd` flag, else the manager-derived working directory. -/
def cwdOf (d : AddDefaults) (pwd : String) (cols : List String) : String :=
  if cols.length < 2 ∨ colsGet cols 1 = "" then
    (if d.flags.cmdCwd ≠ "" then d.flags.cmdCwd else pwd)
  else colsGet cols 1

/-- The requirements-group column (line 255): column 3 if present and
nonempty, else the `--req_grp` flag, else the basename of the command's
first space-separated word. -/
def rgOf (d : AddDefaults) (cmd : String) (cols : List String) : String :=
  if cols.length < 3 ∨ colsGet cols 2 = "" then
    (if d.flags.reqGroup ≠ "" then d.flags.reqGroup
     else filepathBase ((strSplit cmd ' ').getD 0 ""))
  else colsGet cols 2

/-- The memory column (line 266): `bytefmt.ToMegabytes` on column 4, the
flag value when the column is absent or empty. -/
def mbOf (toMB : String → Except String Int) (d : AddDefaults) (cols : List String) :
    Except String Int :=
  if cols.length < 4 ∨ colsGet cols 3 = "" then Except.ok d.flags.cmdMB
  else toMB (colsGet cols 3)

/-- The time column (line 276): `time.ParseDuration` on column 5, the flag
value when the column is absent or empty. -/
def durOf (parseDur : String → Except String Int) (d : AddDefaults) (cols : List String) :
    Except String Int :=
  if cols.length < 5 ∨ colsGet cols 4 = "" then Except.ok d.flags.cmdDuration
  else parseDur (colsGet cols 4)

/-- The cpus column (line 285): `strconv.Atoi` on column 6, the (clamped)
flag value when the column is absent or empty; the parsed value is used
without any further check. -/
def cpusOf (d : AddDefaults) (cols : List String) : Except String Int :=
  if cols.length < 6 ∨ colsGet cols 5 = "" then Except.ok d.flags.cmdCPUs
  else atoi (colsGet cols 5)

/-- The override column (line 294): parsed then range-checked 0..2. -/
def overrideOf (d : AddDefaults) (cols : List String) : Except String Int :=
  if cols.length < 7 ∨ colsGet cols 6 = "" then Except.ok d.flags.cmdOvr
  else
    (atoi (colsGet cols 6)).bind fun v =>
      if v < 0 ∨ v > 2 then Except.error "override column must contain values in the range 0..2"
      else Except.ok v

/-- The priority column (line 306): parsed then range-checked 0..255. -/
def priorityOf (d : AddDefaults) (cols : List String) : Except String Int :=
  if cols.length < 8 ∨ colsGet cols 7 = "" then Except.ok d.flags.cmdPri
  else
    (atoi (colsGet cols 7)).bind fun v =>
      if v < 0 ∨ v > 255 then Except.error "priority column must contain values in the range 0..255"
      else Except.ok v

/-- The retries column (line 318): column 9 is parsed with `strconv.Atoi`,
but the range check at line 325 tests the `priority` variable, not the
freshly parsed value, exactly as the source does. -/
def retriesOf (d : AddDefaults) (cols : List String) (priority : Int) : Except String Int :=
  if cols.length < 9 ∨ colsGet cols 8 = "" then Except.ok d.flags.cmdRet
  else
    (atoi (colsGet cols 8)).bind fun v =>
      if priority < 0 ∨ priority > 255 then
        Except.error "retries column must contain values in the range 0..255"
      else Except.ok v

/-- The report-group column (line 330). -/
def repgOf (d : AddDefaults) (cols : List String) : String :=
  if cols.length < 10 ∨ colsGet cols 9 = "" then d.flags.cmdRepGroup else colsGet cols 9

/-- The dep-groups column (line 337). -/
def depGroupsOf (d : AddDefaults) (cols : List String) : List String :=
  if cols.length < 11 ∨ colsGet cols 10 = "" then d.defaultDepGroups
  else strSplit (colsGet cols 10) ','

/-- The dependency columns (line 343): all columns from 12 onward, checked
for evenness and decoded by `colsToDeps`; the pre-computed `--deps` default
when column 12 is absent or empty. -/
def depsOf (d : AddDefaults) (cols : List String) : Except String (List Dependency) :=
  if cols.length < 12 ∨ colsGet cols 11 = "" then Except.ok d.defaultDeps
  else parseDeps (cols.drop 11)

/-- One iteration of the scanner loop in `addCmd.Run` (lines 225–355): split
the line on tabs; skip it (no job) when it has no first column or an empty
one; otherwise derive every field, dying on any parse/validation error, and
construct the `jobqueue.NewJob` argument record.  The `defaultedRepG` and
`pwdWarning` bookkeeping only affects log messages, not the jobs, and is not
modelled. -/
def processLine (toMB parseDur : String → Except String Int) (d : AddDefaults)
    (pwd : String) (line : String) : Except String (Option Job) :=
  let cols := strSplit line '\t'
  if cols.length < 1 ∨ colsGet cols 0 = "" then Except.ok none
  else
    let cmd := colsGet cols 0
    (mbOf toMB d cols).bind fun mb =>
    (durOf parseDur d cols).bind fun dur =>
    (cpusOf d cols).bind fun cpus =>
    (overrideOf d cols).bind fun override =>
    (priorityOf d cols).bind fun priority =>
    (retriesOf d cols priority).bind fun retries =>
    (depsOf d cols).bind fun deps =>
    Except.ok (some ⟨cmd, cwdOf d pwd cols, rgOf d cmd cols, mb, dur, cpus,
      uint8OfInt override, uint8OfInt priority, uint8OfInt retries,
      repgOf d cols, depGroupsOf d cols, deps⟩)

/-- The whole scanner loop: process every line in order, accumulating the
jobs; the first `die` aborts the run. -/
def addJobs (toMB parseDur : String → Except String Int) (d : AddDefaults)
    (pwd : String) : List String → Except String (List Job)
  | [] => Except.ok []
  | l :: rest =>
    (processLine toMB parseDur d pwd l).bind fun j? =>
    (addJobs toMB parseDur d pwd rest).bind fun js =>
    Except.ok (match j? with | some j => j :: js | none => js)

/-- `addCmd.Run` up to the `jq.Add(jobs)` call: validate and prepare the
flags, then build the job list from the input lines. -/
def addCmdRun (toMB parseDur : String → Except String Int) (f : AddFlags)
    (pwd : String) (ls : List String) : Except String (List Job) :=
  (addPrepare f).bind fun d => addJobs toMB parseDur d pwd ls

/-- A stand-in for the external memory/time parsers at call sites where the
corresponding column is absent, so the parser is never consulted. -/
def okZero : String → Except String Int := fun _ => Except.ok 0

deriving instance DecidableEq for Except

theorem exceptBindOk {ε α β : Type} (x : Except ε α) (g : α → Except ε β) (b : β)
    (h : x.bind g = Except.ok b) : ∃ a, x = Except.ok a ∧ g a = Except.ok b := by
  cases x with
  | error e => simp [Except.bind] at h
  | ok a => exact ⟨a, rfl, by simpa [Except.bind] using h⟩

/-! ## C1: range validation of override / priority / retries -/

/-- C1 (evaluating the divergence): the `--override`, `--priority` and
`--retries` flags and the override and priority columns are range-checked,
but a retries column of `300` is accepted — the line-325 check tests the
`priority` variable instead of the parsed retries value — and the job is
constructed with the wrapped `uint8` value `300 mod 256 = 44`. -/
theorem retries_column_not_range_checked :
    (addCmdRun okZero okZero defaultAddFlags "/tmp" ["c\t\t\t\t\t\t\t\t300"]).map
        (fun js => js.map Job.retries) = Except.ok [44] ∧
    addCmdRun okZero okZero defaultAddFlags "/tmp" ["c\t\t\t\t\t\t300"] =
      Except.error "override column must contain values in the range 0..2" ∧
    addCmdRun okZero okZero defaultAddFlags "/tmp" ["c\t\t\t\t\t\t\t300"] =
      Except.error "priority column must contain values in the range 0..255" ∧
    addCmdRun okZero okZero { defaultAddFlags with cmdRet := 300 } "/tmp" ["c"] =
      Except.error "--retries must be in the range 0..255" ∧
    addCmdRun okZero okZero { defaultAddFlags with cmdOvr := 3 } "/tmp" ["c"] =
      Except.error "--override must be in the range 0..2" ∧
    addCmdRun okZero okZero { defaultAddFlags with cmdPri := 256 } "/tmp" ["c"] =
      Except.error "--priority must be in the range 0..255" := by
  refine ⟨by decide, by decide, by decide, by decide, by decide, by decide⟩

/-! ## C3: requested CPUs -/

/-- The cpus column of an input line, when present and nonempty. -/
def cpusColumn (line : String) : Option String :=
  if (strSplit line '\t').length < 6 ∨ colsGet (strSplit line '\t') 5 = "" then none
  else some (colsGet (strSplit line '\t') 5)

/-- C3 counterexample: a line whose cpus column is `"0"` produces a job with
`cpus = 0`; the claim that every constructed job has at least 1 requested
CPU is false. -/
theorem cpus_column_zero_accepted :
    addCmdRun okZero okZero defaultAddFlags "/tmp" ["c\t\t\t\t\t0"] =
      Except.ok [⟨"c", "/tmp", "c", 1024, 3600000000000, 0, 0, 0, 3, "manually_added", [], []⟩] ∧
    ¬ (∀ (js : List Job) (j : Job),
        addCmdRun okZero okZero defaultAddFlags "/tmp" ["c\t\t\t\t\t0"] = Except.ok js →
        j ∈ js → 1 ≤ j.cpus) := by
  constructor
  · decide
  · intro h
    have h2 := h [⟨"c", "/tmp", "c", 1024, 3600000000000, 0, 0, 0, 3, "manually_added", [], []⟩]
      ⟨"c", "/tmp", "c", 1024, 3600000000000, 0, 0, 0, 3, "manually_added", [], []⟩
      (by decide) (by decide)
    exact absurd h2 (by decide)

theorem clampFlags_cpus_ge_one (f : AddFlags) : 1 ≤ (clampFlags f).cmdCPUs := by
  unfold clampFlags
  simp only
  split <;> omega

theorem addPrepare_flags_eq (f : AddFlags) (d : AddDefaults)
    (h : addPrepare f = Except.ok d) : d.flags = clampFlags f := by
  unfold addPrepare at h
  split at h
  · exact absurd h (by simp)
  · split at h
    · exact absurd h (by simp)
    · split at h
      · exact absurd h (by simp)
      · split at h
        · exact absurd h (by simp)
        · rw [Except.ok.injEq] at h
          subst h
          rfl

theorem addPrepare_cpus_ge_one (f : AddFlags) (d : AddDefaults)
    (h : addPrepare f = Except.ok d) : 1 ≤ d.flags.cmdCPUs := by
  rw [addPrepare_flags_eq f d h]
  exact clampFlags_cpus_ge_one f

/-- C3 (amended): a job whose cpus value comes from the `--cpus` flag (the
cpus column absent or empty) has at least 1 requested CPU, because the flag
is clamped before the loop; but a value parsed from the per-line cpus
column is used exactly as `strconv.Atoi` returned it, with no lower bound. -/
theorem job_cpus_flag_clamped_column_unchecked
    (toMB parseDur : String → Except String Int) (f : AddFlags) (d : AddDefaults)
    (pwd line : String) (j : Job)
    (hprep : addPrepare f = Except.ok d)
    (hok : processLine toMB parseDur d pwd line = Except.ok (some j)) :
    (cpusColumn line = none → j.cpus = d.flags.cmdCPUs ∧ 1 ≤ j.cpus) ∧
    (∀ s, cpusColumn line = some s → atoi s = Except.ok j.cpus) := by
  unfold processLine at hok
  by_cases h0 : (strSplit line '\t').length < 1 ∨ colsGet (strSplit line '\t') 0 = ""
  · rw [if_pos h0] at hok
    simp at hok
  · rw [if_neg h0] at hok
    obtain ⟨mb, hmb, hok⟩ := exceptBindOk _ _ _ hok
    obtain ⟨dur, hdur, hok⟩ := exceptBindOk _ _ _ hok
    obtain ⟨cpus, hcpus, hok⟩ := exceptBindOk _ _ _ hok
    obtain ⟨ov, hov, hok⟩ := exceptBindOk _ _ _ hok
    obtain ⟨pri, hpri, hok⟩ := exceptBindOk _ _ _ hok
    obtain ⟨ret, hret, hok⟩ := exceptBindOk _ _ _ hok
    obtain ⟨deps, hdeps, hok⟩ := exceptBindOk _ _ _ hok
    rw [Except.ok.injEq, Option.some.injEq] at hok
    subst hok
    constructor
    · intro hnone
      unfold cpusColumn at hnone
      by_cases hc : (strSplit line '\t').length < 6 ∨ colsGet (strSplit line '\t') 5 = ""
      · unfold cpusOf at hcpus
        rw [if_pos hc] at hcpus
        rw [Except.ok.injEq] at hcpus
        subst hcpus
        exact ⟨rfl, addPrepare_cpus_ge_one f d hprep⟩
      · rw [if_neg hc] at hnone
        simp at hnone
    · intro s hs
      unfold cpusColumn at hs
      by_cases hc : (strSplit line '\t').length < 6 ∨ colsGet (strSplit line '\t') 5 = ""
      · rw [if_pos hc] at hs
        simp at hs
      · rw [if_neg hc] at hs
        rw [Option.some.injEq] at hs
        unfold cpusOf at hcpus
        rw [if_neg hc] at hcpus
        rw [← hs]
        exact hcpus

/-- Witness for C3 (amended) at a concrete run: the single-column line
`"c"` takes its cpus value from the default flags and gets 1 CPU. -/
theorem job_cpus_flag_clamped_column_unchecked_witness :
    (⟨"c", "/tmp", "c", 1024, 3600000000000, 1, 0, 0, 3, "manually_added", [], []⟩ : Job).cpus =
      (⟨defaultAddFlags, [], []⟩ : AddDefaults).flags.cmdCPUs ∧
    1 ≤ (⟨"c", "/tmp", "c", 1024, 3600000000000, 1, 0, 0, 3, "manually_added", [], []⟩ : Job).cpus := by
  have h := job_cpus_flag_clamped_column_unchecked okZero okZero defaultAddFlags
    ⟨defaultAddFlags, [], []⟩ "/tmp" "c"
    ⟨"c", "/tmp", "c", 1024, 3600000000000, 1, 0, 0, 3, "manually_added", [], []⟩
    (by decide) (by decide)
  exact h.1 (by decide)

/-! ## C10: blank / commandless lines are skipped -/

/-- The skip condition at lines 227–230 of `cmd/add.go`: fewer than one
column (impossible, since a split is never empty) or an empty first column
(which is also what an entirely empty line produces). -/
def lineSkipped (line : String) : Bool :=
  decide ((strSplit line '\t').length < 1 ∨ colsGet (strSplit line '\t') 0 = "")

theorem processLine_skipped (toMB parseDur : String → Except String Int)
    (d : AddDefaults) (pwd : String) (line : String) (h : lineSkipped line = true) :
    processLine toMB parseDur d pwd line = Except.ok none := by
  unfold processLine
  rw [if_pos (of_decide_eq_true h)]

/-- C10: a line that is empty, or whose first (command) column is empty,
contributes no job — it is skipped — and the job list built from any line
list equals the one built with all such lines removed. -/
theorem addJobs_skips_blank_lines (toMB parseDur : String → Except String Int)
    (d : AddDefaults) (pwd : String) (lines : List String) :
    (∀ l, lineSkipped l = true →
        processLine toMB parseDur d pwd l = Except.ok none) ∧
    lineSkipped "" = true ∧
    (∀ l, colsGet (strSplit l '\t') 0 = "" → lineSkipped l = true) ∧
    addJobs toMB parseDur d pwd lines =
      addJobs toMB parseDur d pwd (lines.filter (fun l => !(lineSkipped l))) := by
  refine ⟨processLine_skipped toMB parseDur d pwd, by decide, ?_, ?_⟩
  · intro l h
    unfold lineSkipped
    exact decide_eq_true (Or.inr h)
  · induction lines with
    | nil => rfl
    | cons l rest ih =>
      by_cases hsk : lineSkipped l
      · have hnone := processLine_skipped toMB parseDur d pwd l hsk
        have hfil : (l :: rest).filter (fun l => !(lineSkipped l)) =
            rest.filter (fun l => !(lineSkipped l)) := by
          simp [List.filter, hsk]
        rw [hfil]
        show (processLine toMB parseDur d pwd l).bind _ = _
        rw [hnone]
        show (addJobs toMB parseDur d pwd rest).bind _ = _
        rw [ih]
        cases addJobs toMB parseDur d pwd (rest.filter (fun l => !(lineSkipped l))) with
        | error e => rfl
        | ok js => rfl
      · have hfil : (l :: rest).filter (fun l => !(lineSkipped l)) =
            l :: rest.filter (fun l => !(lineSkipped l)) := by
          simp [List.filter, hsk]
        rw [hfil]
        show (processLine toMB parseDur d pwd l).bind _ =
          (processLine toMB parseDur d pwd l).bind _
        congr 1
        funext j?
        rw [ih]

/-- Witness for C10 at concrete inputs: the empty line and a line with an
empty first column are skipped, and removing them changes nothing. -/
theorem addJobs_skips_blank_lines_witness :
    processLine okZero okZero ⟨defaultAddFlags, [], []⟩ "/tmp" "" = Except.ok none ∧
    lineSkipped "\tx" = true ∧
    addJobs okZero okZero ⟨defaultAddFlags, [], []⟩ "/tmp" ["", "a", "\tx"] =
      addJobs okZero okZero ⟨defaultAddFlags, [], []⟩ "/tmp"
        ((["", "a", "\tx"] : List String).filter (fun l => !(lineSkipped l))) := by
  have h := addJobs_skips_blank_lines okZero okZero ⟨defaultAddFlags, [], []⟩ "/tmp"
    ["", "a", "\tx"]
  exact ⟨h.1 "" (by decide), h.2.2.1 "\tx" (by decide), h.2.2.2⟩

/-! ## C9: envOverride -/

/-- The variable name of an environment entry: `strings.Split(envvar, "=")[0]`. -/
def envKey (s : String) : String := colsGet (strSplit s '=') 0

/-- A Go `map[string]string` modelled as an association list with unique
keys kept in first-insertion order; `m[k] = v`. -/
def mapSet (k v : String) : List (String × String) → List (String × String)
  | [] => [(k, v)]
  | kv :: rest => if kv.1 = k then (k, v) :: rest else kv :: mapSet k v rest

/-- Map lookup. -/
def mapGet : List (String × String) → String → Option String
  | [], _ => none
  | kv :: rest, k => if kv.1 = k then some kv.2 else mapGet rest k

/-- `delete(m, k)`. -/
def mapDelete (m : List (String × String)) (k : String) : List (String × String) :=
  m.filter (fun kv => decide (kv.1 ≠ k))

/-- The first loop of `envOverride`: `override[pair[0]] = envvar` for each
entry of `over` (a later duplicate name overwrites an earlier one). -/
def overrideMap (over : List String) : List (String × String) :=
  over.foldl (fun m envvar => mapSet (envKey envvar) envvar m) []

/-- The second loop of `envOverride`: walk `env := orig` in order, replacing
in place any entry whose name is in the map and deleting the used name;
returns the rewritten slice and the remaining map. -/
def envReplacePass : List String → List (String × String) → List String × List (String × String)
  | [], m => ([], m)
  | e :: rest, m =>
    match mapGet m (envKey e) with
    | some repl =>
      let r := envReplacePass rest (mapDelete m (envKey e))
      (repl :: r.1, r.2)
    | none =>
      let r := envReplacePass rest m
      (e :: r.1, r.2)

/-- `envOverride(orig, over)`: the rewritten original slice followed by the
values still in the override map.  Go iterates that final map in an
unspecified order; the model appends them in first-insertion order, and the
theorems below only state order-insensitive facts about that suffix. -/
def envOverride (orig over : List String) : List String :=
  (envReplacePass orig (overrideMap over)).1 ++
    ((envReplacePass orig (overrideMap over)).2).map Prod.snd

/-- The entry of `over` that wins for name `k`: the last one with that name. -/
def lastOcc (over : List String) (k : String) : Option String :=
  over.reverse.find? (fun e => decide (envKey e = k))

/-- C9 counterexample: when `orig` repeats a name, the name survives twice —
only the first occurrence is replaced (and the name is then deleted from the
override map), so the claim that every name in `over` appears exactly once
in the result is false. -/
theorem envOverride_duplicate_name_counterexample :
    envOverride ["A=1", "A=2"] ["A=3"] = ["A=3", "A=2"] ∧
    ¬ (((envOverride ["A=1", "A=2"] ["A=3"]).filter
        (fun e => decide (envKey e = "A"))).length = 1) := by
  refine ⟨by decide, by decide⟩

theorem mapGet_mapSet (m : List (String × String)) (k v k2 : String) :
    mapGet (mapSet k v m) k2 = if k2 = k then some v else mapGet m k2 := by
  induction m with
  | nil =>
    simp only [mapSet, mapGet]
    by_cases h : k2 = k
    · rw [if_pos h.symm, if_pos h]
    · rw [if_neg (fun hh => h hh.symm), if_neg h]
  | cons kv rest ih =>
    by_cases hk : kv.1 = k
    · simp only [mapSet, if_pos hk, mapGet]
      by_cases h : k2 = k
      · rw [if_pos h.symm, if_pos h]
      · rw [if_neg (fun hh => h hh.symm), if_neg h, if_neg (fun hh => h (hh.symm.trans hk))]
    · simp only [mapSet, if_neg hk, mapGet]
      by_cases h2 : kv.1 = k2
      · have hne : ¬ k2 = k := fun hh => hk (h2.trans hh)
        rw [if_pos h2, if_neg hne, if_pos h2]
      · rw [if_neg h2, ih]
        by_cases h : k2 = k
        · rw [if_pos h, if_pos h]
        · rw [if_neg h, if_neg h, if_neg h2]

theorem mapGet_mapDelete (m : List (String × String)) (k k2 : String) :
    mapGet (mapDelete m k) k2 = if k2 = k then none else mapGet m k2 := by
  induction m with
  | nil =>
    simp only [mapDelete, List.filter_nil, mapGet]
    by_cases h : k2 = k
    · rw [if_pos h]
    · rw [if_neg h]
  | cons kv rest ih =>
    by_cases hk : kv.1 = k
    · have hstep : mapDelete (kv :: rest) k = mapDelete rest k := by
        simp [mapDelete, List.filter_cons, hk]
      rw [hstep, ih]
      by_cases h : k2 = k
      · rw [if_pos h, if_pos h]
      · have hne : ¬ kv.1 = k2 := fun hh => h (hh.symm.trans hk)
        simp only [mapGet]
        rw [if_neg h, if_neg h, if_neg hne]
    · have hstep : mapDelete (kv :: rest) k = kv :: mapDelete rest k := by
        simp [mapDelete, List.filter_cons, hk]
      rw [hstep]
      simp only [mapGet]
      by_cases h2 : kv.1 = k2
      · have hne : ¬ k2 = k := fun hh => hk (h2.trans hh)
        rw [if_pos h2, if_neg hne, if_pos h2]
      · rw [if_neg h2, ih]
        by_cases h : k2 = k
        · rw [if_pos h, if_pos h]
        · rw [if_neg h, if_neg h, if_neg h2]

theorem mapSet_mem {kv : String × String} (k v : String) (m : List (String × String))
    (h : kv ∈ mapSet k v m) : kv = (k, v) ∨ kv ∈ m := by
  induction m with
  | nil => simpa [mapSet] using h
  | cons kv2 rest ih =>
    by_cases hk : kv2.1 = k
    · simp only [mapSet, if_pos hk] at h
      rcases List.mem_cons.mp h with h1 | h1
      · exact Or.inl h1
      · exact Or.inr (List.mem_cons_of_mem _ h1)
    · simp only [mapSet, if_neg hk] at h
      rcases List.mem_cons.mp h with h1 | h1
      · exact Or.inr (h1 ▸ List.mem_cons_self _ _)
      · rcases ih h1 with h2 | h2
        · exact Or.inl h2
        · exact Or.inr (List.mem_cons_of_mem _ h2)

theorem overrideMap_fold_mem (lst : List String) :
    ∀ (m0 : List (String × String)) (kv : String × String),
      kv ∈ lst.foldl (fun m ev => mapSet (envKey ev) ev m) m0 →
      kv ∈ m0 ∨ (kv.2 ∈ lst ∧ envKey kv.2 = kv.1) := by
  induction lst with
  | nil => intro m0 kv h; exact Or.inl h
  | cons e rest ih =>
    intro m0 kv h
    simp only [List.foldl_cons] at h
    rcases ih _ kv h with h1 | h1
    · rcases mapSet_mem _ _ _ h1 with h2 | h2
      · rw [h2]
        exact Or.inr ⟨List.mem_cons_self _ _, rfl⟩
      · exact Or.inl h2
    · exact Or.inr ⟨List.mem_cons_of_mem _ h1.1, h1.2⟩

theorem overrideMap_mem (over : List String) (kv : String × String)
    (h : kv ∈ overrideMap over) : kv.2 ∈ over ∧ envKey kv.2 = kv.1 := by
  rcases overrideMap_fold_mem over [] kv h with h1 | h1
  · simp at h1
  · exact h1

theorem mapSet_keys (k v : String) (m : List (String × String)) :
    (mapSet k v m).map Prod.fst =
      if k ∈ m.map Prod.fst then m.map Prod.fst else m.map Prod.fst ++ [k] := by
  induction m with
  | nil => simp [mapSet]
  | cons kv rest ih =>
    by_cases hk : kv.1 = k
    · simp [mapSet, hk]
    · simp only [mapSet, if_neg hk, List.map_cons]
      rw [ih]
      by_cases hin : k ∈ rest.map Prod.fst
      · simp [hin, Ne.symm hk]
      · simp [hin, Ne.symm hk]

theorem mapSet_keys_nodup (k v : String) (m : List (String × String))
    (h : (m.map Prod.fst).Nodup) : ((mapSet k v m).map Prod.fst).Nodup := by
  rw [mapSet_keys]
  by_cases hin : k ∈ m.map Prod.fst
  · rwa [if_pos hin]
  · rw [if_neg hin]
    rw [List.nodup_append]
    refine ⟨h, by simp, ?_⟩
    intro a ha hb
    simp at hb
    exact hin (hb ▸ ha)

theorem overrideMap_keys_nodup (over : List String) :
    ((overrideMap over).map Prod.fst).Nodup := by
  suffices h : ∀ (lst : List String) (m0 : List (String × String)),
      (m0.map Prod.fst).Nodup →
      ((lst.foldl (fun m ev => mapSet (envKey ev) ev m) m0).map Prod.fst).Nodup by
    exact h over [] (by simp)
  intro lst
  induction lst with
  | nil => intro m0 h; exact h
  | cons e rest ih =>
    intro m0 h
    exact ih _ (mapSet_keys_nodup _ _ _ h)

theorem mapGet_of_mem_nodup (m : List (String × String)) (kv : String × String)
    (hnd : (m.map Prod.fst).Nodup) (h : kv ∈ m) : mapGet m kv.1 = some kv.2 := by
  induction m with
  | nil => simp at h
  | cons kv2 rest ih =>
    rcases List.mem_cons.mp h with h1 | h1
    · rw [h1]
      simp [mapGet]
    · rw [List.map_cons] at hnd
      have hnd0 := List.nodup_cons.mp hnd
      have hne : ¬ kv2.1 = kv.1 := by
        intro hh
        apply hnd0.1
        rw [hh]
        exact List.mem_map_of_mem Prod.fst h1
      simp only [mapGet, if_neg hne]
      exact ih hnd0.2 h1

theorem mapGet_some_mem (m : List (String × String)) (k v : String)
    (h : mapGet m k = some v) : (k, v) ∈ m := by
  induction m with
  | nil => simp [mapGet] at h
  | cons kv rest ih =>
    simp only [mapGet] at h
    by_cases hk : kv.1 = k
    · rw [if_pos hk] at h
      rw [Option.some.injEq] at h
      have : (k, v) = kv := by
        cases kv
        simp_all
      exact this ▸ List.mem_cons_self _ _
    · rw [if_neg hk] at h
      exact List.mem_cons_of_mem _ (ih h)

theorem mapGet_eq_none_forall (m : List (String × String)) (k : String)
    (h : mapGet m k = none) : ∀ kv ∈ m, ¬ kv.1 = k := by
  induction m with
  | nil => intro kv hkv; simp at hkv
  | cons kv2 rest ih =>
    intro kv hkv
    simp only [mapGet] at h
    by_cases hk : kv2.1 = k
    · rw [if_pos hk] at h
      exact absurd h (by simp)
    · rw [if_neg hk] at h
      rcases List.mem_cons.mp hkv with h1 | h1
      · rw [h1]; exact hk
      · exact ih h kv h1

theorem lastOcc_cons (e : String) (rest : List String) (k : String) :
    lastOcc (e :: rest) k =
      (lastOcc rest k).or (if envKey e = k then some e else none) := by
  unfold lastOcc
  rw [List.reverse_cons, List.find?_append]
  congr 1
  by_cases h : envKey e = k <;> simp [List.find?, h]

theorem overrideMap_fold_get (over : List String) (k : String) :
    ∀ m0, mapGet (over.foldl (fun m ev => mapSet (envKey ev) ev m) m0) k =
      (lastOcc over k).or (mapGet m0 k) := by
  induction over with
  | nil =>
    intro m0
    simp [lastOcc, List.foldl_nil]
  | cons e rest ih =>
    intro m0
    simp only [List.foldl_cons]
    rw [ih (mapSet (envKey e) e m0), mapGet_mapSet, lastOcc_cons]
    cases lastOcc rest k with
    | some v => rfl
    | none =>
      by_cases h : envKey e = k
      · rw [if_pos h, if_pos h.symm]
        rfl
      · rw [if_neg h, if_neg (fun hh => h hh.symm)]
        rfl

theorem overrideMap_get (over : List String) (k : String) :
    mapGet (overrideMap over) k = lastOcc over k := by
  unfold overrideMap
  rw [overrideMap_fold_get]
  cases lastOcc over k <;> rfl

theorem lastOcc_mem (over : List String) (k v : String) (h : lastOcc over k = some v) :
    v ∈ over ∧ envKey v = k := by
  unfold lastOcc at h
  constructor
  · exact List.mem_reverse.mp (List.mem_of_find?_eq_some h)
  · have := List.find?_some h
    simpa using this

theorem lastOcc_isSome_of_mem (over : List String) (e : String) (h : e ∈ over) :
    (lastOcc over (envKey e)).isSome := by
  unfold lastOcc
  rw [List.find?_isSome]
  exact ⟨e, List.mem_reverse.mpr h, by simp⟩

theorem envReplacePass_spec :
    ∀ (orig : List String) (m : List (String × String)),
      (orig.map envKey).Nodup →
      (envReplacePass orig m).1 = orig.map (fun e => (mapGet m (envKey e)).getD e) ∧
      (envReplacePass orig m).2 =
        m.filter (fun kv => decide (kv.1 ∉ orig.map envKey)) := by
  intro orig
  induction orig with
  | nil =>
    intro m _
    constructor
    · rfl
    · simp [envReplacePass]
  | cons e rest ih =>
    intro m hnd
    rw [List.map_cons] at hnd
    have hnd0 := List.nodup_cons.mp hnd
    have hker : envKey e ∉ rest.map envKey := hnd0.1
    cases hg : mapGet m (envKey e) with
    | some repl =>
      obtain ⟨h1, h2⟩ := ih (mapDelete m (envKey e)) hnd0.2
      have hpt : rest.map (fun e2 => (mapGet (mapDelete m (envKey e)) (envKey e2)).getD e2) =
          rest.map (fun e2 => (mapGet m (envKey e2)).getD e2) := by
        apply List.map_congr_left
        intro e2 he2
        rw [mapGet_mapDelete]
        have hne2 : ¬ envKey e2 = envKey e := by
          intro hh
          apply hker
          rw [← hh]
          exact List.mem_map_of_mem envKey he2
        rw [if_neg hne2]
      constructor
      · simp only [envReplacePass, hg, List.map_cons]
        rw [h1, hpt]
        simp [hg]
      · simp only [envReplacePass, hg]
        rw [h2]
        unfold mapDelete
        rw [List.filter_filter]
        apply List.filter_congr
        intro kv _
        simp only [List.map_cons, List.mem_cons, not_or, decide_not]
        by_cases ha : kv.1 = envKey e
        · simp [ha]
        · by_cases hb : kv.1 ∈ rest.map envKey <;> simp [ha, hb]
    | none =>
      obtain ⟨h1, h2⟩ := ih m hnd0.2
      have hnone := mapGet_eq_none_forall m (envKey e) hg
      constructor
      · simp only [envReplacePass, hg, List.map_cons]
        rw [h1]
        simp [hg]
      · simp only [envReplacePass, hg]
        rw [h2]
        apply List.filter_congr
        intro kv hkv
        have hne := hnone kv hkv
        simp only [List.map_cons, List.mem_cons, not_or]
        by_cases hb : kv.1 ∈ rest.map envKey <;> simp [hne, hb]

/-- C9 (amended): for original environments with pairwise-distinct variable
names (as `os.Environ` produces): over the original positions, each entry
whose name occurs in `over` is replaced in place by `over`'s (last) entry
for that name and every other entry is kept unchanged; after them come
exactly the `over` entries for names not occurring in `orig`, once per name;
and nothing else is present.  The suffix facts are stated order-insensitively
because Go iterates the leftover map in unspecified order.  (For an `orig`
that repeats a name the original claim fails: only the first occurrence is
replaced — see the counterexample.) -/
theorem envOverride_spec (orig over : List String)
    (hnd : (orig.map envKey).Nodup) :
    (envOverride orig over).take orig.length =
      orig.map (fun e => (lastOcc over (envKey e)).getD e) ∧
    (∀ e ∈ (envOverride orig over).drop orig.length,
        envKey e ∉ orig.map envKey ∧ lastOcc over (envKey e) = some e) ∧
    (((envOverride orig over).drop orig.length).map envKey).Nodup ∧
    (∀ k, k ∈ over.map envKey → k ∉ orig.map envKey →
        ∃ e ∈ (envOverride orig over).drop orig.length, envKey e = k) ∧
    (∀ e ∈ envOverride orig over, e ∈ orig ∨ e ∈ over) := by
  obtain ⟨h1, h2⟩ := envReplacePass_spec orig (overrideMap over) hnd
  have hfst : (envReplacePass orig (overrideMap over)).1 =
      orig.map (fun e => (lastOcc over (envKey e)).getD e) := by
    rw [h1]
    apply List.map_congr_left
    intro e _
    rw [overrideMap_get]
  have hlen : (envReplacePass orig (overrideMap over)).1.length = orig.length := by
    rw [hfst]
    simp
  have htake : (envOverride orig over).take orig.length =
      (envReplacePass orig (overrideMap over)).1 := by
    unfold envOverride
    rw [← hlen, List.take_left]
  have hdrop : (envOverride orig over).drop orig.length =
      ((envReplacePass orig (overrideMap over)).2).map Prod.snd := by
    unfold envOverride
    rw [← hlen, List.drop_left]
  refine ⟨htake.trans hfst, ?_, ?_, ?_, ?_⟩
  · intro e he
    rw [hdrop, h2] at he
    rcases List.mem_map.mp he with ⟨kv, hkvmem, hsnd⟩
    have hfil := List.mem_filter.mp hkvmem
    have hm0 : kv ∈ overrideMap over := hfil.1
    have hnotin : kv.1 ∉ orig.map envKey := of_decide_eq_true hfil.2
    obtain ⟨hover, hkey⟩ := overrideMap_mem over kv hm0
    have hke : envKey e = kv.1 := by rw [← hsnd]; exact hkey
    constructor
    · rw [hke]; exact hnotin
    · rw [hke, ← overrideMap_get, ← hsnd]
      exact mapGet_of_mem_nodup _ kv (overrideMap_keys_nodup over) hm0
  · rw [hdrop, h2]
    have hmm : ((((overrideMap over).filter
          (fun kv => decide (kv.1 ∉ orig.map envKey))).map Prod.snd).map envKey) =
        (((overrideMap over).filter
          (fun kv => decide (kv.1 ∉ orig.map envKey))).map Prod.fst) := by
      rw [List.map_map]
      apply List.map_congr_left
      intro kv hkv
      exact (overrideMap_mem over kv (List.mem_filter.mp hkv).1).2
    rw [hmm]
    exact (overrideMap_keys_nodup over).sublist ((List.filter_sublist _).map Prod.fst)
  · intro k hkover hknotin
    rcases List.mem_map.mp hkover with ⟨e0, he0, hk0⟩
    have hsome : (lastOcc over k).isSome := by
      rw [← hk0]
      exact lastOcc_isSome_of_mem over e0 he0
    rcases Option.isSome_iff_exists.mp hsome with ⟨v, hv⟩
    have hvm : (k, v) ∈ overrideMap over :=
      mapGet_some_mem _ _ _ (by rw [overrideMap_get]; exact hv)
    have hvfil : (k, v) ∈ (overrideMap over).filter
        (fun kv => decide (kv.1 ∉ orig.map envKey)) :=
      List.mem_filter.mpr ⟨hvm, decide_eq_true hknotin⟩
    refine ⟨v, ?_, ?_⟩
    · rw [hdrop, h2]
      exact List.mem_map_of_mem Prod.snd hvfil
    · exact (overrideMap_mem over (k, v) hvm).2
  · intro e he
    unfold envOverride at he
    rcases List.mem_append.mp he with h | h
    · rw [hfst] at h
      rcases List.mem_map.mp h with ⟨e0, he0, hee⟩
      cases hlo : lastOcc over (envKey e0) with
      | some v =>
        right
        have hv := (lastOcc_mem over (envKey e0) v hlo).1
        rw [← hee, hlo]
        exact hv
      | none =>
        left
        rw [← hee, hlo]
        exact he0
    · rw [h2] at h
      rcases List.mem_map.mp h with ⟨kv, hkvmem, hsnd⟩
      right
      rw [← hsnd]
      exact (overrideMap_mem over kv (List.mem_filter.mp hkvmem).1).1

/-- Witness for C9 (amended) at concrete slices: `orig = [A=1, B=2]`,
`over = [B=9, C=3]` gives `[A=1, B=9, C=3]`. -/
theorem envOverride_spec_witness :
    (envOverride ["A=1", "B=2"] ["B=9", "C=3"]).take 2 =
      (["A=1", "B=2"] : List String).map
        (fun e => (lastOcc ["B=9", "C=3"] (envKey e)).getD e) ∧
    (∀ e ∈ envOverride ["A=1", "B=2"] ["B=9", "C=3"],
        e ∈ (["A=1", "B=2"] : List String) ∨ e ∈ (["B=9", "C=3"] : List String)) := by
  have h := envOverride_spec ["A=1", "B=2"] ["B=9", "C=3"] (by decide)
  exact ⟨h.1, h.2.2.2.2⟩

/-! ## C5: prefixSuffixSaver -/

/-- The `prefixSuffixSaver` struct (taken from `os/exec` by the source): an
`io.Writer` retaining the first `N` and last `N` bytes written.  The Go
`prefix` field is called `pre` here (the Go name is a reserved word in
Lean); `N` is the nonnegative capacity (the Go field is an `int`, but a
negative `N` makes `Write` panic on a slice bound, so the type's domain is
`N ≥ 0`); `skipped` is an `int64` that only ever grows from 0. -/
structure prefixSuffixSaver where
  N : Nat
  pre : List Nat
  suffix : List Nat
  suffixOff : Nat
  skipped : Nat
deriving DecidableEq

/-- `(w *prefixSuffixSaver).fill(dst, p)`: top `dst` up to `N` bytes from
the front of `p`, returning the new `dst` and the rest of `p`. -/
def psFill (N : Nat) (dst p : List Nat) : List Nat × List Nat :=
  if 0 < N - dst.length then
    (dst ++ p.take (min p.length (N - dst.length)), p.drop (min p.length (N - dst.length)))
  else (dst, p)

/-- The ring-buffer loop at the end of `Write` (`for len(p) > 0`): copy into
`suffix[suffixOff:]`, advance and wrap the offset, and count every byte so
written into `skipped`.  Returns the new suffix, new offset, and the number
of bytes counted.  The `n = 0` guard mirrors the fact that the Go loop can
only make progress when the copy is nonempty (in `Write` the suffix is full
and `suffixOff < N` whenever this loop runs). -/
def psRing (N : Nat) (suffix : List Nat) (suffixOff : Nat) (p : List Nat) :
    List Nat × Nat × Nat :=
  if hp : p = [] then (suffix, suffixOff, 0)
  else
    let n := min (suffix.length - suffixOff) p.length
    if hn : n = 0 then (suffix, suffixOff, 0)
    else
      let suffix2 := suffix.take suffixOff ++ p.take n ++ suffix.drop (suffixOff + n)
      let off2 := if suffixOff + n = N then 0 else suffixOff + n
      let r := psRing N suffix2 off2 (p.drop n)
      (r.1, r.2.1, n + r.2.2)
termination_by p.length
decreasing_by
  simp only [List.length_drop]
  have hplen : 0 < p.length := List.length_pos.mpr hp
  omega

/-- `(w *prefixSuffixSaver).Write(p)`: fill the first-`N` buffer, drop (and
count) any overage beyond the last `N` bytes of the remainder, fill the
suffix buffer, and ring-write whatever is left. -/
def psWrite (w : prefixSuffixSaver) (p : List Nat) : prefixSuffixSaver :=
  let f1 := psFill w.N w.pre p
  let p1 := f1.2
  let sk1 := p1.length - w.N
  let p2 := if 0 < p1.length - w.N then p1.drop (p1.length - w.N) else p1
  let f2 := psFill w.N w.suffix p2
  let r := psRing w.N f2.1 w.suffixOff f2.2
  ⟨w.N, f1.1, r.1, r.2.1, w.skipped + (if 0 < p1.length - w.N then sk1 else 0) + r.2.2⟩

/-- The `"\n... omitting N bytes ...\n"` marker written by `Bytes`. -/
def omitMarker (k : Nat) : List Nat :=
  ("\n... omitting " ++ toString k ++ " bytes ...\n").toList.map Char.toNat

/-- `(w *prefixSuffixSaver).Bytes()`: the retained prefix, then (when
anything was skipped) the omission marker, then the suffix ring unrotated.
The Go `suffix == nil` test is `suffix = []` here: the suffix slice is nil
exactly until a byte is first appended to it. -/
def psBytes (w : prefixSuffixSaver) : List Nat :=
  if w.suffix = [] then w.pre
  else if w.skipped = 0 then w.pre ++ w.suffix
  else w.pre ++ omitMarker w.skipped ++ w.suffix.drop w.suffixOff ++ w.suffix.take w.suffixOff

/-- A zero-valued saver with capacity `N`, as `os/exec` constructs it. -/
def psInit (N : Nat) : prefixSuffixSaver := ⟨N, [], [], 0, 0⟩

/-- The saver after a whole sequence of writes. -/
def psWriteAll (N : Nat) (ws : List (List Nat)) : prefixSuffixSaver :=
  ws.foldl psWrite (psInit N)

theorem take_min_length (p : List Nat) (x : Nat) : p.take (min p.length x) = p.take x := by
  rcases Nat.le_total p.length x with h | h
  · rw [Nat.min_eq_left h, List.take_length, List.take_of_length_le h]
  · rw [Nat.min_eq_right h]

theorem drop_min_length (p : List Nat) (x : Nat) : p.drop (min p.length x) = p.drop x := by
  rcases Nat.le_total p.length x with h | h
  · rw [Nat.min_eq_left h, List.drop_length, List.drop_of_length_le h]
  · rw [Nat.min_eq_right h]

theorem ringRotate (suffix p : List Nat) (off n N : Nat)
    (hs : suffix.length = N) (hoff : off ≤ N) (hoffn : off + n ≤ N) (hnp : n ≤ p.length) :
    (suffix.take off ++ p.take n ++ suffix.drop (off + n)).drop
        (if off + n = N then 0 else off + n) ++
      (suffix.take off ++ p.take n ++ suffix.drop (off + n)).take
        (if off + n = N then 0 else off + n) =
      (suffix.drop off ++ suffix.take off).drop n ++ p.take n := by
  have hlenA : (suffix.take off ++ p.take n).length = off + n := by
    simp only [List.length_append, List.length_take]
    omega
  have hUdrop : (suffix.drop off ++ suffix.take off).drop n =
      suffix.drop (off + n) ++ suffix.take off := by
    rw [List.drop_append_eq_append_drop]
    have h1 : (suffix.drop off).drop n = suffix.drop (off + n) := by
      rw [List.drop_drop]
    have h2 : n - (suffix.drop off).length = 0 := by
      simp only [List.length_drop]
      omega
    rw [h1, h2, List.drop_zero]
  by_cases hw : off + n = N
  · rw [if_pos hw]
    rw [List.drop_zero, List.take_zero, List.append_nil]
    have hdropN : suffix.drop (off + n) = [] := by
      apply List.drop_of_length_le
      omega
    rw [hUdrop, hdropN]
    simp [List.append_assoc]
  · rw [if_neg hw]
    rw [List.append_assoc]
    have hd : ((suffix.take off ++ p.take n) ++ suffix.drop (off + n)).drop (off + n) =
        suffix.drop (off + n) := List.drop_left' hlenA
    have ht : ((suffix.take off ++ p.take n) ++ suffix.drop (off + n)).take (off + n) =
        suffix.take off ++ p.take n := List.take_left' hlenA
    rw [← List.append_assoc, hd, ht, hUdrop]
    rw [List.append_assoc]

theorem psRing_nil (N : Nat) (suffix : List Nat) (off : Nat) :
    psRing N suffix off [] = (suffix, off, 0) := by
  rw [psRing]
  exact dif_pos rfl

theorem psRing_step (N : Nat) (suffix p : List Nat) (off : Nat) (hp : ¬ p = [])
    (hn : ¬ min (suffix.length - off) p.length = 0) :
    psRing N suffix off p =
      ((psRing N
          (suffix.take off ++ p.take (min (suffix.length - off) p.length) ++
            suffix.drop (off + min (suffix.length - off) p.length))
          (if off + min (suffix.length - off) p.length = N then 0
           else off + min (suffix.length - off) p.length)
          (p.drop (min (suffix.length - off) p.length))).1,
       (psRing N
          (suffix.take off ++ p.take (min (suffix.length - off) p.length) ++
            suffix.drop (off + min (suffix.length - off) p.length))
          (if off + min (suffix.length - off) p.length = N then 0
           else off + min (suffix.length - off) p.length)
          (p.drop (min (suffix.length - off) p.length))).2.1,
       min (suffix.length - off) p.length +
         (psRing N
          (suffix.take off ++ p.take (min (suffix.length - off) p.length) ++
            suffix.drop (off + min (suffix.length - off) p.length))
          (if off + min (suffix.length - off) p.length = N then 0
           else off + min (suffix.length - off) p.length)
          (p.drop (min (suffix.length - off) p.length))).2.2) := by
  conv_lhs => rw [psRing]
  simp only [dif_neg hp, dif_neg hn]

theorem unrot_shift (U p : List Nat) (n N : Nat) (hU : U.length = N) (hn : n ≤ p.length)
    (hp : p.length ≤ N) :
    ((U.drop n ++ p.take n) ++ p.drop n).drop (p.length - n) = (U ++ p).drop p.length := by
  rw [List.append_assoc, List.take_append_drop]
  rw [List.drop_append_eq_append_drop, List.drop_append_eq_append_drop, List.drop_drop]
  congr 1
  · congr 1
    omega
  · congr 1
    simp only [List.length_drop, hU]
    omega

theorem psRing_spec (N : Nat) (hN : 1 ≤ N) :
    ∀ (fuel : Nat) (p suffix : List Nat) (off : Nat),
      p.length ≤ fuel → suffix.length = N → off < N → p.length ≤ N →
      (psRing N suffix off p).1.length = N ∧
      (psRing N suffix off p).2.1 < N ∧
      (psRing N suffix off p).2.2 = p.length ∧
      (p = [] → (psRing N suffix off p).2.1 = off) ∧
      (psRing N suffix off p).1.drop (psRing N suffix off p).2.1 ++
        (psRing N suffix off p).1.take (psRing N suffix off p).2.1 =
        ((suffix.drop off ++ suffix.take off) ++ p).drop p.length := by
  intro fuel
  induction fuel with
  | zero =>
    intro p suffix off hfuel hs hoff hpN
    have hp : p = [] := List.length_eq_zero.mp (Nat.le_zero.mp hfuel)
    subst hp
    rw [psRing_nil]
    refine ⟨hs, hoff, rfl, fun _ => rfl, ?_⟩
    rw [List.append_nil, List.length_nil, List.drop_zero]
  | succ fuel ih =>
    intro p suffix off hfuel hs hoff hpN
    by_cases hp : p = []
    · subst hp
      rw [psRing_nil]
      refine ⟨hs, hoff, rfl, fun _ => rfl, ?_⟩
      rw [List.append_nil, List.length_nil, List.drop_zero]
    · have hplen : 0 < p.length := List.length_pos.mpr hp
      have hnpos : 0 < min (suffix.length - off) p.length := by
        rw [hs]
        omega
      have hn : ¬ min (suffix.length - off) p.length = 0 := by omega
      have hrot := ringRotate suffix p off (min (suffix.length - off) p.length) N hs
        (le_of_lt hoff)
        (by omega)
        (Nat.min_le_right _ _)
      rw [psRing_step N suffix p off hp hn]
      have hnle1 : min (suffix.length - off) p.length ≤ suffix.length - off :=
        Nat.min_le_left _ _
      have hnle2 : min (suffix.length - off) p.length ≤ p.length :=
        Nat.min_le_right _ _
      have hs2len : (suffix.take off ++ p.take (min (suffix.length - off) p.length) ++
          suffix.drop (off + min (suffix.length - off) p.length)).length = N := by
        simp only [List.length_append, List.length_take, List.length_drop]
        omega
      have hoff2 : (if off + min (suffix.length - off) p.length = N then 0
          else off + min (suffix.length - off) p.length) < N := by
        split
        · omega
        · omega
      have hdroplen : (p.drop (min (suffix.length - off) p.length)).length ≤ fuel := by
        simp only [List.length_drop]
        omega
      have hdropN : (p.drop (min (suffix.length - off) p.length)).length ≤ N := by
        simp only [List.length_drop]
        omega
      obtain ⟨ih1, ih2, ih3, _, ih5⟩ := ih (p.drop (min (suffix.length - off) p.length))
        (suffix.take off ++ p.take (min (suffix.length - off) p.length) ++
          suffix.drop (off + min (suffix.length - off) p.length))
        (if off + min (suffix.length - off) p.length = N then 0
         else off + min (suffix.length - off) p.length)
        hdroplen hs2len hoff2 hdropN
      refine ⟨ih1, ih2, ?_, fun hpe => absurd hpe hp, ?_⟩
      · rw [ih3]
        simp only [List.length_drop]
        omega
      · rw [ih5, hrot, List.length_drop]
        exact unrot_shift (suffix.drop off ++ suffix.take off) p
          (min (suffix.length - off) p.length) N
          (by simp only [List.length_append, List.length_drop, List.length_take]; omega)
          hnle2 hpN

theorem psFill_eq (N : Nat) (dst p : List Nat) (h : dst.length ≤ N) :
    psFill N dst p = (dst ++ p.take (N - dst.length), p.drop (N - dst.length)) := by
  unfold psFill
  by_cases hr : 0 < N - dst.length
  · rw [if_pos hr, take_min_length, drop_min_length]
  · rw [if_neg hr]
    have h0 : N - dst.length = 0 := by omega
    rw [h0, List.take_zero, List.drop_zero, List.append_nil]

theorem psWrite_decompose (w : prefixSuffixSaver) (p : List Nat)
    (pre2 p1 p2 suffix1 p3 : List Nat)
    (h1 : psFill w.N w.pre p = (pre2, p1))
    (h2 : (if 0 < p1.length - w.N then p1.drop (p1.length - w.N) else p1) = p2)
    (h3 : psFill w.N w.suffix p2 = (suffix1, p3)) :
    psWrite w p = ⟨w.N, pre2, (psRing w.N suffix1 w.suffixOff p3).1,
      (psRing w.N suffix1 w.suffixOff p3).2.1,
      w.skipped + (if 0 < p1.length - w.N then p1.length - w.N else 0) +
        (psRing w.N suffix1 w.suffixOff p3).2.2⟩ := by
  unfold psWrite
  rw [h1]
  simp only
  rw [h2, h3]

def psInv (N : Nat) (J : List Nat) (w : prefixSuffixSaver) : Prop :=
  w.N = N ∧
  w.pre = J.take N ∧
  w.suffix.length = min (J.length - N) N ∧
  w.skipped = J.length - 2 * N ∧
  w.suffixOff ≤ w.suffix.length ∧
  w.suffixOff < N ∧
  (w.suffix.length < N → w.suffixOff = 0) ∧
  (w.skipped = 0 → w.suffixOff = 0) ∧
  w.suffix.drop w.suffixOff ++ w.suffix.take w.suffixOff =
    J.drop (J.length - w.suffix.length)

set_option maxHeartbeats 1600000 in
theorem psWrite_inv (N : Nat) (hN : 1 ≤ N) (J : List Nat) (w : prefixSuffixSaver)
    (h : psInv N J w) (p : List Nat) : psInv N (J ++ p) (psWrite w p) := by
  obtain ⟨hwN, hpre, hslen, hskip, hos, hoN, hlt0, hsk0, hunrot⟩ := h
  subst hwN
  have hpreLen : w.pre.length = min w.N J.length := by
    rw [hpre]
    exact List.length_take _ _
  have hf1 := psFill_eq w.N w.pre p (by omega)
  have hNsub : w.N - w.pre.length = w.N - J.length := by omega
  rw [hNsub] at hf1
  have hp2eq : (if 0 < (p.drop (w.N - J.length)).length - w.N then
      (p.drop (w.N - J.length)).drop ((p.drop (w.N - J.length)).length - w.N)
      else (p.drop (w.N - J.length))) =
      (p.drop (w.N - J.length)).drop
        ((p.drop (w.N - J.length)).length - min (p.drop (w.N - J.length)).length w.N) := by
    split
    · congr 1
      omega
    · have h0 : (p.drop (w.N - J.length)).length -
          min (p.drop (w.N - J.length)).length w.N = 0 := by omega
      rw [h0, List.drop_zero]
  have hf2 := psFill_eq w.N w.suffix
    ((p.drop (w.N - J.length)).drop
      ((p.drop (w.N - J.length)).length - min (p.drop (w.N - J.length)).length w.N))
    (by omega)
  have hdec := psWrite_decompose w p
    (w.pre ++ p.take (w.N - J.length))
    (p.drop (w.N - J.length))
    ((p.drop (w.N - J.length)).drop
      ((p.drop (w.N - J.length)).length - min (p.drop (w.N - J.length)).length w.N))
    (w.suffix ++ ((p.drop (w.N - J.length)).drop
      ((p.drop (w.N - J.length)).length - min (p.drop (w.N - J.length)).length w.N)).take
        (w.N - w.suffix.length))
    (((p.drop (w.N - J.length)).drop
      ((p.drop (w.N - J.length)).length - min (p.drop (w.N - J.length)).length w.N)).drop
        (w.N - w.suffix.length))
    hf1 hp2eq hf2
  rw [hdec]
  set P1 : List Nat := p.drop (w.N - J.length) with hP1
  set P2 : List Nat := P1.drop (P1.length - min P1.length w.N) with hP2
  set S1 : List Nat := w.suffix ++ P2.take (w.N - w.suffix.length) with hS1
  set P3 : List Nat := P2.drop (w.N - w.suffix.length) with hP3
  have hpre2C : w.pre ++ p.take (w.N - J.length) = (J ++ p).take w.N := by
    rw [hpre, List.take_append_eq_append_take]
  have hP1len : P1.length = p.length - (w.N - J.length) := by
    rw [hP1]
    exact List.length_drop _ _
  have hP2len : P2.length = min P1.length w.N := by
    rw [hP2, List.length_drop]
    omega
  have hsk1u : (if 0 < P1.length - w.N then P1.length - w.N else 0) = P1.length - w.N := by
    split
    · rfl
    · omega
  rw [hsk1u]
  clear hdec hf1 hf2 hp2eq
  clear_value P3 S1 P2 P1
  have hJP : (J ++ p).length = J.length + p.length := List.length_append _ _
  by_cases hp2nil : P2 = []
  · -- the write is wholly absorbed by the first-N buffer (or is empty)
    have hP3nil : P3 = [] := by rw [hP3, hp2nil]; exact List.drop_nil
    have hS1eq : S1 = w.suffix := by rw [hS1, hp2nil]; simp
    rw [hP3nil, hS1eq, psRing_nil]
    have hP1z : P1.length = 0 := by
      rw [hp2nil] at hP2len
      simp at hP2len
      omega
    refine ⟨rfl, hpre2C, ?_, ?_, hos, hoN, hlt0, ?_, ?_⟩
    · show w.suffix.length = min ((J ++ p).length - w.N) w.N
      rw [hslen, hJP]
      omega
    · show w.skipped + (P1.length - w.N) + 0 = (J ++ p).length - 2 * w.N
      rw [hskip, hJP]
      omega
    · show w.skipped + (P1.length - w.N) + 0 = 0 → w.suffixOff = 0
      intro hz
      exact hsk0 (by omega)
    · show w.suffix.drop w.suffixOff ++ w.suffix.take w.suffixOff =
        (J ++ p).drop ((J ++ p).length - w.suffix.length)
      by_cases hpnil : p = []
      · subst hpnil
        rw [List.append_nil]
        exact hunrot
      · have hple : 0 < p.length := List.length_pos.mpr hpnil
        have hsz : w.suffix.length = 0 := by
          rw [hslen]
          omega
        have hsnil : w.suffix = [] := List.length_eq_zero.mp hsz
        rw [hsnil]
        simp [List.drop_of_length_le]
  · have hP2pos : 0 < P2.length := List.length_pos.mpr hp2nil
    by_cases hfits : P2.length ≤ w.N - w.suffix.length
    · -- the suffix buffer absorbs all of it; the ring loop does not run
      have hP3nil : P3 = [] := by rw [hP3]; exact List.drop_of_length_le hfits
      have hS1eq : S1 = w.suffix ++ P2 := by
        rw [hS1]
        congr 1
        exact List.take_of_length_le hfits
      rw [hP3nil, hS1eq, psRing_nil]
      by_cases hs0 : w.suffix.length = 0
      · -- empty suffix before: the new suffix is exactly P2
        have hsnil : w.suffix = [] := List.length_eq_zero.mp hs0
        have hoff0 : w.suffixOff = 0 := by omega
        have hJle : J.length ≤ w.N := by omega
        have hdropP1 : ∀ x : Nat, P1.drop x = p.drop ((w.N - J.length) + x) := by
          intro x
          rw [hP1, List.drop_drop]
        have hP2eqp : P2 = p.drop ((w.N - J.length) + (P1.length - min P1.length w.N)) := by
          rw [hP2]
          exact hdropP1 _
        refine ⟨rfl, hpre2C, ?_, ?_, ?_, hoN, ?_, ?_, ?_⟩
        · show (w.suffix ++ P2).length = min ((J ++ p).length - w.N) w.N
          rw [List.length_append, hJP, hs0, hP2len]
          omega
        · show w.skipped + (P1.length - w.N) + 0 = (J ++ p).length - 2 * w.N
          rw [hskip, hJP]
          omega
        · show w.suffixOff ≤ (w.suffix ++ P2).length
          rw [List.length_append]
          omega
        · show (w.suffix ++ P2).length < w.N → w.suffixOff = 0
          intro _
          exact hoff0
        · show w.skipped + (P1.length - w.N) + 0 = 0 → w.suffixOff = 0
          intro _
          exact hoff0
        · show (w.suffix ++ P2).drop w.suffixOff ++ (w.suffix ++ P2).take w.suffixOff =
            (J ++ p).drop ((J ++ p).length - (w.suffix ++ P2).length)
          rw [hoff0, List.drop_zero, List.take_zero, List.append_nil, hsnil]
          simp only [List.nil_append]
          have hRHS : (J ++ p).drop ((J ++ p).length - P2.length) =
              p.drop ((J ++ p).length - P2.length - J.length) := by
            rw [List.drop_append_eq_append_drop,
              List.drop_of_length_le (by omega), List.nil_append]
          rw [hRHS]
          conv_lhs => rw [hP2eqp]
          have hidx : (w.N - J.length) + (P1.length - P1.length ⊓ w.N) =
              (J ++ p).length - P2.length - J.length := by omega
          rw [hidx]
      · -- nonempty suffix: J is longer than N, P1 = p, no overage
        have hspos : 0 < w.suffix.length := by omega
        have hJN : w.N < J.length := by omega
        have hP1p : P1 = p := by
          rw [hP1]
          have h0 : w.N - J.length = 0 := by omega
          rw [h0, List.drop_zero]
        have hP1lp : P1.length = p.length := by rw [hP1p]
        have hsltN : w.suffix.length < w.N := by omega
        have hoff0 : w.suffixOff = 0 := hlt0 hsltN
        have hP2p : P2 = p := by
          rw [hP2]
          conv_lhs => rw [hP1p]
          have h0 : p.length - p.length ⊓ w.N = 0 := by omega
          rw [h0, List.drop_zero]
        have hP2lp : P2.length = p.length := by rw [hP2p]
        have hsuffeq : w.suffix = J.drop (J.length - w.suffix.length) := by
          have h := hunrot
          rw [hoff0, List.drop_zero, List.take_zero, List.append_nil] at h
          exact h
        refine ⟨rfl, hpre2C, ?_, ?_, ?_, hoN, ?_, ?_, ?_⟩
        · show (w.suffix ++ P2).length = min ((J ++ p).length - w.N) w.N
          rw [List.length_append, hJP]
          omega
        · show w.skipped + (P1.length - w.N) + 0 = (J ++ p).length - 2 * w.N
          rw [hskip, hJP]
          omega
        · show w.suffixOff ≤ (w.suffix ++ P2).length
          rw [List.length_append]
          omega
        · show (w.suffix ++ P2).length < w.N → w.suffixOff = 0
          intro _
          exact hoff0
        · show w.skipped + (P1.length - w.N) + 0 = 0 → w.suffixOff = 0
          intro _
          exact hoff0
        · show (w.suffix ++ P2).drop w.suffixOff ++ (w.suffix ++ P2).take w.suffixOff =
            (J ++ p).drop ((J ++ p).length - (w.suffix ++ P2).length)
          rw [hoff0, List.drop_zero, List.take_zero, List.append_nil, hP2p]
          have hidx : (J ++ p).length - (w.suffix ++ p).length =
              J.length - w.suffix.length := by
            rw [hJP, List.length_append]
            omega
          rw [hidx, List.drop_append_eq_append_drop]
          have h2 : J.length - w.suffix.length - J.length = 0 := by omega
          rw [h2, List.drop_zero, ← hsuffeq]
    · -- the suffix buffer is (or becomes) full and the ring loop runs
      have hspos : 0 < w.suffix.length := by omega
      have hJN : w.N < J.length := by omega
      have hP1p : P1 = p := by
        rw [hP1]
        have h0 : w.N - J.length = 0 := by omega
        rw [h0, List.drop_zero]
      have hP1lp : P1.length = p.length := by rw [hP1p]
      have hS1full : S1.length = w.N := by
        rw [hS1, List.length_append, List.length_take]
        omega
      have hP3len : P3.length = P2.length - (w.N - w.suffix.length) := by
        rw [hP3, List.length_drop]
      have hP3N : P3.length ≤ w.N := by omega
      obtain ⟨hr1, hr2, hr3, _, hr5⟩ :=
        psRing_spec w.N hN P3.length P3 S1 w.suffixOff le_rfl hS1full hoN hP3N
      generalize hR : psRing w.N S1 w.suffixOff P3 = R at hr1 hr2 hr3 hr5 ⊢
      refine ⟨rfl, hpre2C, ?_, ?_, ?_, hr2, ?_, ?_, ?_⟩
      · show R.1.length = min ((J ++ p).length - w.N) w.N
        rw [hr1, hJP]
        omega
      · show w.skipped + (P1.length - w.N) + R.2.2 = (J ++ p).length - 2 * w.N
        rw [hr3, hskip, hJP, hP3len]
        omega
      · show R.2.1 ≤ R.1.length
        rw [hr1]
        omega
      · show R.1.length < w.N → R.2.1 = 0
        rw [hr1]
        intro hcon
        omega
      · show w.skipped + (P1.length - w.N) + R.2.2 = 0 → R.2.1 = 0
        rw [hr3, hskip, hP3len]
        intro hcon
        omega
      · show R.1.drop R.2.1 ++ R.1.take R.2.1 = (J ++ p).drop ((J ++ p).length - R.1.length)
        rw [hr1, hr5]
        have hQ : S1.drop w.suffixOff =
            w.suffix.drop w.suffixOff ++ P2.take (w.N - w.suffix.length) := by
          rw [hS1, List.drop_append_eq_append_drop]
          have h0 : w.suffixOff - w.suffix.length = 0 := by omega
          rw [h0, List.drop_zero]
        have hQ2 : S1.take w.suffixOff = w.suffix.take w.suffixOff := by
          rw [hS1]
          exact List.take_append_of_le_length hos
        rw [hQ, hQ2]
        have hcomm : (w.suffix.drop w.suffixOff ++ P2.take (w.N - w.suffix.length)) ++
            w.suffix.take w.suffixOff =
            (w.suffix.drop w.suffixOff ++ w.suffix.take w.suffixOff) ++
              P2.take (w.N - w.suffix.length) := by
          by_cases hoff0 : w.suffixOff = 0
          · rw [hoff0, List.take_zero, List.append_nil, List.append_nil]
          · have hsN : w.suffix.length = w.N := by
              by_contra hc
              exact hoff0 (hlt0 (by omega))
            have h0 : w.N - w.suffix.length = 0 := by omega
            rw [h0, List.take_zero, List.append_nil, List.append_nil]
        rw [hcomm, hunrot, List.append_assoc]
        have hQP3 : P2.take (w.N - w.suffix.length) ++ P3 = P2 := by
          rw [hP3]
          exact List.take_append_drop _ _
        rw [hQP3]
        by_cases hov : w.N < p.length
        · have hP2ov : P2 = p.drop (p.length - w.N) := by
            rw [hP2, hP1p]
            have hidx : p.length - p.length ⊓ w.N = p.length - w.N := by omega
            rw [hidx]
          have hlenA : (J.drop (J.length - w.suffix.length)).length = w.suffix.length := by
            rw [List.length_drop]
            omega
          have hdropA : (J.drop (J.length - w.suffix.length) ++ P2).drop P3.length = P2 := by
            rw [hP3len]
            have hidx2 : P2.length - (w.N - w.suffix.length) = w.suffix.length := by omega
            rw [hidx2]
            exact List.drop_left' hlenA
          rw [hdropA]
          conv_lhs => rw [hP2ov]
          rw [List.drop_append_eq_append_drop]
          have hJnil : J.drop ((J ++ p).length - w.N) = [] :=
            List.drop_of_length_le (by omega)
          rw [hJnil, List.nil_append]
          have hidx3 : (J ++ p).length - w.N - J.length = p.length - w.N := by
            rw [hJP]
            omega
          rw [hidx3]
        · have hP2p2 : P2 = p := by
            rw [hP2, hP1p]
            have h0 : p.length - p.length ⊓ w.N = 0 := by omega
            rw [h0, List.drop_zero]
          conv_lhs => rw [hP2p2]
          have hJdrop : J.drop (J.length - w.suffix.length) ++ p =
              (J ++ p).drop (J.length - w.suffix.length) := by
            rw [List.drop_append_eq_append_drop]
            have h0 : J.length - w.suffix.length - J.length = 0 := by omega
            rw [h0, List.drop_zero]
          rw [hJdrop, List.drop_drop]
          have hidx4 : J.length - w.suffix.length + P3.length = (J ++ p).length - w.N := by
            rw [hP3len, hJP]
            omega
          rw [hidx4]

/-- The zero-valued saver satisfies the invariant with nothing written. -/
theorem psInit_inv (N : Nat) (hN : 1 ≤ N) : psInv N [] (psInit N) := by
  refine ⟨rfl, ?_, ?_, ?_, Nat.le_refl _, hN, fun _ => rfl, fun _ => rfl, ?_⟩ <;>
    simp [psInit]

theorem psFoldl_inv (N : Nat) (hN : 1 ≤ N) (ws : List (List Nat)) :
    ∀ (J : List Nat) (w : prefixSuffixSaver), psInv N J w →
      psInv N (J ++ ws.flatten) (ws.foldl psWrite w) := by
  induction ws with
  | nil =>
    intro J w h
    simpa using h
  | cons q qs ih =>
    intro J w h
    have h2 := psWrite_inv N hN J w h q
    have h3 := ih (J ++ q) (psWrite w q) h2
    rw [List.flatten_cons, List.foldl_cons, ← List.append_assoc]
    exact h3

theorem psWriteAll_inv (N : Nat) (hN : 1 ≤ N) (ws : List (List Nat)) :
    psInv N ws.flatten (psWriteAll N ws) := by
  have h := psFoldl_inv N hN ws [] (psInit N) (psInit_inv N hN)
  rw [List.nil_append] at h
  exact h

theorem psBytes_of_inv (N : Nat) (hN : 1 ≤ N) (J : List Nat) (w : prefixSuffixSaver)
    (h : psInv N J w) :
    (J.length ≤ 2 * N → psBytes w = J) ∧
    (2 * N < J.length →
      psBytes w = J.take N ++ omitMarker (J.length - 2 * N) ++ J.drop (J.length - N)) := by
  obtain ⟨hwN, hpre, hslen, hskip, hos, hoN, hlt0, hsk0, hunrot⟩ := h
  subst hwN
  constructor
  · intro hT
    by_cases hTN : J.length ≤ w.N
    · have hs0 : w.suffix.length = 0 := by omega
      have hsnil : w.suffix = [] := List.length_eq_zero.mp hs0
      rw [psBytes, if_pos hsnil, hpre]
      exact List.take_of_length_le hTN
    · have hspos : 0 < w.suffix.length := by omega
      have hsnil : ¬ w.suffix = [] := by
        intro hc
        rw [hc] at hspos
        simp at hspos
      have hsk : w.skipped = 0 := by omega
      have hoff0 : w.suffixOff = 0 := hsk0 hsk
      rw [psBytes, if_neg hsnil, if_pos hsk, hpre]
      rw [hoff0, List.drop_zero, List.take_zero, List.append_nil] at hunrot
      rw [hunrot]
      have hidx : J.length - w.suffix.length = w.N := by omega
      rw [hidx, List.take_append_drop]
  · intro hT
    have hsfull : w.suffix.length = w.N := by omega
    have hsnil : ¬ w.suffix = [] := by
      intro hc
      rw [hc] at hsfull
      simp at hsfull
      omega
    have hskpos : ¬ w.skipped = 0 := by omega
    rw [psBytes, if_neg hsnil, if_neg hskpos, hpre, hskip, List.append_assoc, hunrot, hsfull]

/-- C5 (corrected to require `1 ≤ N`; the program always uses `N = 4096`):
for every sequence of writes totalling `T` bytes to a `prefixSuffixSaver`
of capacity `N ≥ 1`, if `T ≤ 2N` then `Bytes` returns exactly the
concatenation of all bytes written, and if `T > 2N` it returns the first
`N` bytes written, then the marker naming the exact count `T − 2N` of
omitted bytes, then the last `N` bytes written in order. -/
theorem psBytes_psWriteAll (N : Nat) (hN : 1 ≤ N) (ws : List (List Nat)) :
    (ws.flatten.length ≤ 2 * N → psBytes (psWriteAll N ws) = ws.flatten) ∧
    (2 * N < ws.flatten.length →
      psBytes (psWriteAll N ws) =
        ws.flatten.take N ++ omitMarker (ws.flatten.length - 2 * N) ++
          ws.flatten.drop (ws.flatten.length - N)) :=
  psBytes_of_inv N hN ws.flatten (psWriteAll N ws) (psWriteAll_inv N hN ws)

theorem psBytes_psWriteAll_witness :
    psBytes (psWriteAll 2 [[1, 2, 3], [4, 5, 6, 7]]) = [1, 2] ++ omitMarker 3 ++ [6, 7] := by
  have h := (psBytes_psWriteAll 2 (by decide) [[1, 2, 3], [4, 5, 6, 7]]).2 (by decide)
  exact h

/-- Counterexample to C5 as stated (quantifying over every `N`): at
`N = 0`, a single 1-byte write has `T = 1 > 0 = 2N`, yet `Bytes` returns
`[]` and not the claimed output, which would contain the non-empty
omission marker. -/
theorem psBytes_zero_capacity_counterexample :
    psBytes (psWriteAll 0 [[7]]) = [] ∧
    2 * 0 < ([[7]] : List (List Nat)).flatten.length ∧
    omitMarker (([[7]] : List (List Nat)).flatten.length - 2 * 0) ≠ [] := by
  refine ⟨?_, by decide, by decide⟩
  have h1 : psWrite (psInit 0) [7] = ⟨0, [], (psRing 0 [] 0 []).1,
      (psRing 0 [] 0 []).2.1, 0 + 1 + (psRing 0 [] 0 []).2.2⟩ :=
    psWrite_decompose (psInit 0) [7] [] [7] [] [] [] rfl rfl rfl
  rw [psRing_nil] at h1
  have h2 : psWriteAll 0 [[7]] = ⟨0, [], [], 0, 1⟩ := by
    rw [psWriteAll, List.foldl_cons, List.foldl_nil, h1]
    rfl
  rw [h2]
  rfl

/-! ## C7: rmEmptyDirs -/

/-- Errors `os.Remove` can produce in this setting: the path does not exist
(`IsNotExist`), or it names a non-empty directory ("directory not empty"). -/
inductive RmErr where
  | notExist
  | notEmpty
deriving DecidableEq

/-- `os.Remove` on a tree of directories.  A filesystem is the list of
existing directories, each an absolute path given as its list of components
(`[]` is the root).  `x` is a child of `d` when `x ≠ [] ∧ x.dropLast = d`
(`filepath.Dir` is `dropLast` on components).  Removing looks the path up,
fails on a missing path or a non-empty directory, and otherwise deletes the
entry. -/
def osRemove (fs : List (List String)) (d : List String) :
    Except RmErr (List (List String)) :=
  if d ∈ fs then
    if ∃ x ∈ fs, x ≠ ([] : List String) ∧ x.dropLast = d then Except.error RmErr.notEmpty
    else Except.ok (fs.filter (fun x => decide (x ≠ d)))
  else Except.error RmErr.notExist

/-- The climbing loop of `rmEmptyDirs`
(`for ; parent != baseDir; parent = filepath.Dir(current)`): while the
parent is not `baseDir`, try to remove it, stopping at the first removal
error; on success continue from the parent.  The loop makes at most one
step per path component (each step shortens `current`), so it is phrased
with that much fuel; `current = []` is the Go loop reaching `/`, whose
removal always fails. -/
def rmClimb : Nat → List (List String) → List String → List String → List (List String)
  | 0, fs, _, _ => fs
  | fuel + 1, fs, base, current =>
    if current.dropLast = base ∨ current = [] then fs
    else
      match osRemove fs current.dropLast with
      | Except.error _ => fs
      | Except.ok fs2 => rmClimb fuel fs2 base current.dropLast

/-- `rmEmptyDirs(leafDir, baseDir)`: remove `leafDir` (a missing `leafDir`
is fine and still climbs; a non-empty `leafDir` returns `nil` at once via
the "directory not empty" test), then climb towards `baseDir` removing
now-empty parents. -/
def rmEmptyDirs (fs : List (List String)) (leafDir baseDir : List String) :
    Except RmErr (List (List String)) :=
  match osRemove fs leafDir with
  | Except.error RmErr.notEmpty => Except.ok fs
  | Except.error RmErr.notExist => Except.ok (rmClimb leafDir.length fs baseDir leafDir)
  | Except.ok fs2 => Except.ok (rmClimb leafDir.length fs2 baseDir leafDir)

theorem osRemove_ok (fs : List (List String)) (d : List String)
    (fs2 : List (List String)) (h : osRemove fs d = Except.ok fs2) :
    d ∈ fs ∧ (∀ x ∈ fs, ¬(x ≠ [] ∧ x.dropLast = d)) ∧
      fs2 = fs.filter (fun x => decide (x ≠ d)) := by
  unfold osRemove at h
  by_cases h1 : d ∈ fs
  · rw [if_pos h1] at h
    by_cases h2 : ∃ x ∈ fs, x ≠ ([] : List String) ∧ x.dropLast = d
    · rw [if_pos h2] at h
      exact absurd h (by simp)
    · rw [if_neg h2] at h
      push_neg at h2
      refine ⟨h1, ?_, (Except.ok.injEq _ _ |>.mp h).symm⟩
      intro x hx hc
      exact (h2 x hx hc.1) hc.2
  · rw [if_neg h1] at h
    exact absurd h (by simp)

theorem mem_of_not_mem_filter_ne (fs : List (List String)) (p d : List String)
    (hmem : p ∈ fs) (hnot : p ∉ fs.filter (fun x => decide (x ≠ d))) : p = d := by
  by_contra hne
  exact hnot (List.mem_filter.mpr ⟨hmem, by simp [hne]⟩)

theorem not_mem_filter_self (fs : List (List String)) (d : List String) :
    d ∉ fs.filter (fun x => decide (x ≠ d)) := by
  intro h
  have := (List.mem_filter.mp h).2
  simp at this

theorem prefix_dropLast_of_proper (base current : List String)
    (hpre : base <+: current) (hne : base ≠ current) (hcur : current ≠ []) :
    base <+: current.dropLast := by
  have hlen : base.length < current.length :=
    Nat.lt_of_le_of_ne hpre.length_le (fun hl => hne (List.IsPrefix.eq_of_length hpre hl))
  have htake : base = current.take base.length := List.prefix_iff_eq_take.mp hpre
  have hdl : current.dropLast = current.take (current.length - 1) :=
    (List.dropLast_eq_take _).trans rfl
  have htake2 : base = (current.dropLast).take base.length := by
    rw [hdl, List.take_take]
    rw [Nat.min_eq_left (by omega)]
    exact htake
  rw [htake2]
  exact List.take_prefix _ _

theorem rmClimb_spec : ∀ (fuel : Nat) (fs : List (List String)) (base current : List String),
    base <+: current → base ≠ current →
    (rmClimb fuel fs base current).Sublist fs ∧
    (∀ d ∈ fs, d ∉ rmClimb fuel fs base current →
      base <+: d ∧ d ≠ base ∧ d <+: current ∧ d ≠ current) ∧
    (∀ x ∈ rmClimb fuel fs base current, x ≠ [] → x.dropLast ∈ fs →
      x.dropLast ∈ rmClimb fuel fs base current) := by
  intro fuel
  induction fuel with
  | zero =>
    intro fs base current _ _
    exact ⟨List.Sublist.refl _, fun d hd hnd => absurd hd hnd, fun x hx _ h2 => h2⟩
  | succ fuel ih =>
    intro fs base current hpre hne
    rw [rmClimb]
    by_cases hguard : current.dropLast = base ∨ current = []
    · rw [if_pos hguard]
      exact ⟨List.Sublist.refl _, fun d hd hnd => absurd hd hnd, fun x hx _ h2 => h2⟩
    · rw [if_neg hguard]
      push_neg at hguard
      obtain ⟨hpb, hcur⟩ := hguard
      match hrm : osRemove fs current.dropLast with
      | Except.error e =>
        exact ⟨List.Sublist.refl _, fun d hd hnd => absurd hd hnd, fun x hx _ h2 => h2⟩
      | Except.ok fs2 =>
        obtain ⟨hdmem, hnochild, hfs2⟩ := osRemove_ok fs current.dropLast fs2 hrm
        have hpre2 : base <+: current.dropLast :=
          prefix_dropLast_of_proper base current hpre hne hcur
        have hne2 : base ≠ current.dropLast := fun hc => hpb hc.symm
        obtain ⟨ihsub, ihrem, ihpar⟩ := ih fs2 base current.dropLast hpre2 hne2
        have hsub2 : fs2.Sublist fs := by
          rw [hfs2]
          exact List.filter_sublist _
        have hdlpre : current.dropLast <+: current := List.dropLast_prefix _
        have hdllen : current.dropLast.length < current.length := by
          rw [List.length_dropLast]
          have : 0 < current.length := List.length_pos.mpr hcur
          omega
        refine ⟨ihsub.trans hsub2, ?_, ?_⟩
        · intro d hd hnd
          by_cases hd2 : d ∈ fs2
          · obtain ⟨h1, h2, h3, h4⟩ := ihrem d hd2 hnd
            refine ⟨h1, h2, h3.trans hdlpre, ?_⟩
            intro hc
            rw [hc] at h3
            have := h3.length_le
            omega
          · have hdeq : d = current.dropLast := by
              apply mem_of_not_mem_filter_ne fs d current.dropLast hd
              rw [← hfs2]
              exact hd2
            subst hdeq
            refine ⟨hpre2, hne2.symm, hdlpre, ?_⟩
            intro hc
            have := congrArg List.length hc
            omega
        · intro x hx hxne hxp
          by_cases hxp2 : x.dropLast ∈ fs2
          · exact ihpar x hx hxne hxp2
          · have hpeq : x.dropLast = current.dropLast := by
              apply mem_of_not_mem_filter_ne fs x.dropLast current.dropLast hxp
              rw [← hfs2]
              exact hxp2
            have hxfs2 : x ∈ fs2 := ihsub.mem hx
            have hxfs : x ∈ fs := hsub2.mem hxfs2
            exact absurd ⟨hxne, hpeq⟩ (hnochild x hxfs)

theorem osRemove_error_cases (fs : List (List String)) (d : List String) (e : RmErr)
    (h : osRemove fs d = Except.error e) :
    d ∉ fs ∨ ∃ x ∈ fs, x ≠ ([] : List String) ∧ x.dropLast = d := by
  unfold osRemove at h
  by_cases h1 : d ∈ fs
  · rw [if_pos h1] at h
    by_cases h2 : ∃ x ∈ fs, x ≠ ([] : List String) ∧ x.dropLast = d
    · exact Or.inr h2
    · rw [if_neg h2] at h
      exact absurd h (by simp)
  · exact Or.inl h1

theorem osRemove_notEmpty_mem (fs : List (List String)) (d : List String)
    (h : osRemove fs d = Except.error RmErr.notEmpty) : d ∈ fs := by
  unfold osRemove at h
  by_cases h1 : d ∈ fs
  · exact h1
  · rw [if_neg h1] at h
    exact absurd h (by simp)

theorem rmClimb_sublist : ∀ (fuel : Nat) (fs : List (List String)) (base current : List String),
    (rmClimb fuel fs base current).Sublist fs := by
  intro fuel
  induction fuel with
  | zero =>
    intro fs base current
    exact List.Sublist.refl _
  | succ fuel ih =>
    intro fs base current
    rw [rmClimb]
    by_cases hguard : current.dropLast = base ∨ current = []
    · rw [if_pos hguard]
    · rw [if_neg hguard]
      match hrm : osRemove fs current.dropLast with
      | Except.error e => exact List.Sublist.refl _
      | Except.ok fs2 =>
        obtain ⟨_, _, hfs2⟩ := osRemove_ok fs current.dropLast fs2 hrm
        refine (ih fs2 base current.dropLast).trans ?_
        rw [hfs2]
        exact List.filter_sublist _

/-- Liveness of the climb: an ancestor `d` of `current` strictly above
`current` and strictly below nothing protected (`d ≠ base`), such that the
whole chain of directories strictly between `d` and `current` exists and
every descendant of `d` present in the tree ends up removed, is itself
removed — the loop really does walk up and delete the now-empty parents. -/
theorem rmClimb_live : ∀ (fuel : Nat) (fs : List (List String)) (base current : List String),
    current.length ≤ fuel →
    ∀ d ∈ fs, base <+: d → d ≠ base → d <+: current → d ≠ current →
      (∀ e : List String, d <+: e → e ≠ d → e <+: current → e ≠ current → e ∈ fs) →
      (∀ x ∈ fs, d <+: x → x ≠ d → x ∉ rmClimb fuel fs base current) →
      d ∉ rmClimb fuel fs base current := by
  intro fuel
  induction fuel with
  | zero =>
    intro fs base current hfuel d hd hbd hdb hdc hdcne hchain hdesc
    have h0c : current = [] := List.length_eq_zero.mp (Nat.le_zero.mp hfuel)
    rw [h0c] at hdc hdcne
    have h0 : d = [] := List.length_eq_zero.mp (Nat.le_zero.mp (by
      have := hdc.length_le
      simpa using this))
    exact absurd h0 hdcne
  | succ fuel ih =>
    intro fs base current hfuel d hd hbd hdb hdc hdcne hchain hdesc
    by_cases hguard : current.dropLast = base ∨ current = []
    · have hres : rmClimb (fuel + 1) fs base current = fs := by
        rw [rmClimb, if_pos hguard]
      rw [hres]
      by_cases hnil : current = []
      · rw [hnil] at hdc hdcne
        have h0 : d = [] := List.length_eq_zero.mp (Nat.le_zero.mp (by
          have := hdc.length_le
          simpa using this))
        exact absurd h0 hdcne
      · have hpb : current.dropLast = base := hguard.resolve_right hnil
        have h1 : d.length < current.length :=
          Nat.lt_of_le_of_ne hdc.length_le (fun h => hdcne (hdc.eq_of_length h))
        have h2 : current.dropLast.length = current.length - 1 := List.length_dropLast current
        have h3 : base.length ≤ d.length := hbd.length_le
        have h4 := congrArg List.length hpb
        have h5 : 0 < current.length := List.length_pos.mpr hnil
        have hbd2 : base = d := hbd.eq_of_length (by omega)
        exact absurd hbd2.symm hdb
    · have hcur : current ≠ [] := fun hc => hguard (Or.inr hc)
      have hcl : 0 < current.length := List.length_pos.mpr hcur
      have hdlen : d.length < current.length :=
        Nat.lt_of_le_of_ne hdc.length_le (fun h => hdcne (hdc.eq_of_length h))
      have hdllen : current.dropLast.length = current.length - 1 := List.length_dropLast current
      have hdlpre : current.dropLast <+: current := List.dropLast_prefix current
      match hrm : osRemove fs current.dropLast with
      | Except.error e =>
        have hres : rmClimb (fuel + 1) fs base current = fs := by
          rw [rmClimb, if_neg hguard, hrm]
        rw [hres] at hdesc ⊢
        by_cases hdp : d = current.dropLast
        · rcases osRemove_error_cases fs current.dropLast e hrm with hnm | ⟨x, hx, hxne, hxp⟩
          · rw [← hdp] at hnm
            exact absurd hd hnm
          · have hdx : d <+: x := by
              rw [hdp, ← hxp]
              exact List.dropLast_prefix x
            have hxd : x ≠ d := by
              intro hc
              have hx1 : x.dropLast.length = x.length - 1 := List.length_dropLast x
              have hx2 : 0 < x.length := List.length_pos.mpr hxne
              rw [hdp, ← hxp] at hc
              have hx3 := congrArg List.length hc
              omega
            exact absurd hx (hdesc x hx hdx hxd)
        · have hdparent : d <+: current.dropLast :=
            List.prefix_of_prefix_length_le hdc hdlpre (by omega)
          have hpd : current.dropLast ≠ d := fun hc => hdp hc.symm
          have hpc : current.dropLast ≠ current := by
            intro hc
            have := congrArg List.length hc
            omega
          have hpmem : current.dropLast ∈ fs := hchain current.dropLast hdparent hpd hdlpre hpc
          exact absurd hpmem (hdesc current.dropLast hpmem hdparent hpd)
      | Except.ok fs2 =>
        have hres : rmClimb (fuel + 1) fs base current =
            rmClimb fuel fs2 base current.dropLast := by
          rw [rmClimb, if_neg hguard, hrm]
        rw [hres] at hdesc ⊢
        obtain ⟨hpmem, hnochild, hfs2⟩ := osRemove_ok fs current.dropLast fs2 hrm
        by_cases hdp : d = current.dropLast
        · have hnotin : d ∉ fs2 := by
            rw [hfs2, hdp]
            exact not_mem_filter_self fs current.dropLast
          intro hmem
          exact hnotin ((rmClimb_sublist fuel fs2 base current.dropLast).mem hmem)
        · have hdparent : d <+: current.dropLast :=
            List.prefix_of_prefix_length_le hdc hdlpre (by omega)
          refine ih fs2 base current.dropLast (by omega) d ?_ hbd hdb hdparent hdp ?_ ?_
          · rw [hfs2]
            exact List.mem_filter.mpr ⟨hd, by simp [hdp]⟩
          · intro e he hed hel hele
            have he1 : e <+: current := hel.trans hdlpre
            have he2 : e ≠ current := by
              intro hc
              have he3 := hel.length_le
              rw [hc] at he3
              omega
            have hefs : e ∈ fs := hchain e he hed he1 he2
            rw [hfs2]
            exact List.mem_filter.mpr ⟨hefs, by simp [hele]⟩
          · intro x hx hdx hxd
            have hxfs : x ∈ fs := by
              rw [hfs2] at hx
              exact (List.mem_filter.mp hx).1
            exact hdesc x hxfs hdx hxd

/-- C7 (corrected): when `baseDir` is a proper ancestor of `leafDir`,
`rmEmptyDirs` always reports success, only ever deletes directories on the
path strictly between `baseDir` (exclusive) and `leafDir` (inclusive),
never deletes `baseDir`, never deletes a directory that still has a
surviving child, deletes an existing empty `leafDir`, and really climbs:
every ancestor strictly between `baseDir` and `leafDir` whose chain of
intermediate directories down to `leafDir` exists and whose descendants
present in the tree are all deleted is itself deleted — including when
`leafDir` itself did not exist. -/
theorem rmEmptyDirs_spec (fs : List (List String)) (leafDir baseDir : List String)
    (hpre : baseDir <+: leafDir) (hne : baseDir ≠ leafDir) :
    ∃ fs2 : List (List String), rmEmptyDirs fs leafDir baseDir = Except.ok fs2 ∧
      fs2.Sublist fs ∧
      (baseDir ∈ fs → baseDir ∈ fs2) ∧
      (∀ d ∈ fs, d ∉ fs2 → baseDir <+: d ∧ d ≠ baseDir ∧ d <+: leafDir) ∧
      (∀ x ∈ fs2, x ≠ [] → x.dropLast ∈ fs → x.dropLast ∈ fs2) ∧
      (leafDir ∈ fs → (∀ x ∈ fs, ¬(x ≠ [] ∧ x.dropLast = leafDir)) → leafDir ∉ fs2) ∧
      (∀ d ∈ fs, baseDir <+: d → d ≠ baseDir → d <+: leafDir → d ≠ leafDir →
        (∀ e : List String, d <+: e → e ≠ d → e <+: leafDir → e ≠ leafDir → e ∈ fs) →
        (∀ x ∈ fs, d <+: x → x ≠ d → x ∉ fs2) →
        d ∉ fs2) := by
  unfold rmEmptyDirs
  match hrm : osRemove fs leafDir with
  | Except.error RmErr.notEmpty =>
    refine ⟨fs, rfl, List.Sublist.refl _, fun h => h, fun d hd hnd => absurd hd hnd,
      fun x hx _ h2 => h2, ?_, ?_⟩
    · intro hmem hempty
      unfold osRemove at hrm
      rw [if_pos hmem] at hrm
      by_cases h2 : ∃ x ∈ fs, x ≠ ([] : List String) ∧ x.dropLast = leafDir
      · obtain ⟨x, hx, hc⟩ := h2
        exact absurd hc (hempty x hx)
      · rw [if_neg h2] at hrm
        exact absurd hrm (by simp)
    · intro d hd hbd hdb hdc hdcne hchain hdesc
      have hmem : leafDir ∈ fs := osRemove_notEmpty_mem fs leafDir hrm
      exact absurd hmem (hdesc leafDir hmem hdc (Ne.symm hdcne))
  | Except.error RmErr.notExist =>
    obtain ⟨hsub, hrem, hpar⟩ := rmClimb_spec leafDir.length fs baseDir leafDir hpre hne
    refine ⟨_, rfl, hsub, ?_, ?_, hpar, ?_, ?_⟩
    · intro hmem
      by_contra hnot
      exact (hrem baseDir hmem hnot).2.1 rfl
    · intro d hd hnd
      obtain ⟨h1, h2, h3, _⟩ := hrem d hd hnd
      exact ⟨h1, h2, h3⟩
    · intro hmem _
      unfold osRemove at hrm
      rw [if_pos hmem] at hrm
      by_cases h2 : ∃ x ∈ fs, x ≠ ([] : List String) ∧ x.dropLast = leafDir
      · rw [if_pos h2] at hrm
        exact absurd hrm (by simp)
      · rw [if_neg h2] at hrm
        exact absurd hrm (by simp)
    · intro d hd hbd hdb hdc hdcne hchain hdesc
      exact rmClimb_live leafDir.length fs baseDir leafDir le_rfl d hd hbd hdb hdc hdcne
        hchain hdesc
  | Except.ok fs1 =>
    obtain ⟨hdmem, hnochild, hfs1⟩ := osRemove_ok fs leafDir fs1 hrm
    obtain ⟨hsub, hrem, hpar⟩ := rmClimb_spec leafDir.length fs1 baseDir leafDir hpre hne
    have hsub1 : fs1.Sublist fs := by
      rw [hfs1]
      exact List.filter_sublist _
    refine ⟨_, rfl, hsub.trans hsub1, ?_, ?_, ?_, ?_, ?_⟩
    · intro hmem
      have hbase1 : baseDir ∈ fs1 := by
        rw [hfs1]
        exact List.mem_filter.mpr ⟨hmem, by simp [hne]⟩
      by_contra hnot
      exact (hrem baseDir hbase1 hnot).2.1 rfl
    · intro d hd hnd
      by_cases hd1 : d ∈ fs1
      · obtain ⟨h1, h2, h3, _⟩ := hrem d hd1 hnd
        exact ⟨h1, h2, h3⟩
      · have hdeq : d = leafDir := by
          apply mem_of_not_mem_filter_ne fs d leafDir hd
          rw [← hfs1]
          exact hd1
        subst hdeq
        exact ⟨hpre, fun hc => hne hc.symm, List.prefix_refl _⟩
    · intro x hx hxne hxp
      by_cases hxp1 : x.dropLast ∈ fs1
      · exact hpar x hx hxne hxp1
      · have hpeq : x.dropLast = leafDir := by
          apply mem_of_not_mem_filter_ne fs x.dropLast leafDir hxp
          rw [← hfs1]
          exact hxp1
        have hxfs : x ∈ fs := hsub1.mem (hsub.mem hx)
        exact absurd ⟨hxne, hpeq⟩ (hnochild x hxfs)
    · intro _ _
      intro hc
      have hmem1 : leafDir ∈ fs1 := hsub.mem hc
      rw [hfs1] at hmem1
      exact not_mem_filter_self fs leafDir hmem1
    · intro d hd hbd hdb hdc hdcne hchain hdesc
      have hd1 : d ∈ fs1 := by
        rw [hfs1]
        exact List.mem_filter.mpr ⟨hd, by simp [hdcne]⟩
      refine rmClimb_live leafDir.length fs1 baseDir leafDir le_rfl d hd1 hbd hdb hdc hdcne
        ?_ ?_
      · intro e he hed hel hele
        have hefs : e ∈ fs := hchain e he hed hel hele
        rw [hfs1]
        exact List.mem_filter.mpr ⟨hefs, by simp [hele]⟩
      · intro x hx hdx hxd
        have hxfs : x ∈ fs := hsub1.mem hx
        exact hdesc x hxfs hdx hxd

theorem rmEmptyDirs_spec_witness :
    ∃ fs2 : List (List String),
      rmEmptyDirs [["a"], ["a", "b"], ["a", "b", "c"]] ["a", "b", "c"] ["a"] =
        Except.ok fs2 ∧
      fs2.Sublist [["a"], ["a", "b"], ["a", "b", "c"]] ∧
      (["a"] ∈ [[("a" : String)], ["a", "b"], ["a", "b", "c"]] → ["a"] ∈ fs2) ∧
      (∀ d ∈ [[("a" : String)], ["a", "b"], ["a", "b", "c"]], d ∉ fs2 →
        ["a"] <+: d ∧ d ≠ ["a"] ∧ d <+: ["a", "b", "c"]) ∧
      (∀ x ∈ fs2, x ≠ [] →
        x.dropLast ∈ [[("a" : String)], ["a", "b"], ["a", "b", "c"]] → x.dropLast ∈ fs2) ∧
      (["a", "b", "c"] ∈ [[("a" : String)], ["a", "b"], ["a", "b", "c"]] →
        (∀ x ∈ [[("a" : String)], ["a", "b"], ["a", "b", "c"]],
          ¬(x ≠ [] ∧ x.dropLast = ["a", "b", "c"])) → ["a", "b", "c"] ∉ fs2) ∧
      (∀ d ∈ [[("a" : String)], ["a", "b"], ["a", "b", "c"]], ["a"] <+: d → d ≠ ["a"] →
        d <+: ["a", "b", "c"] → d ≠ ["a", "b", "c"] →
        (∀ e : List String, d <+: e → e ≠ d → e <+: ["a", "b", "c"] →
          e ≠ ["a", "b", "c"] → e ∈ [[("a" : String)], ["a", "b"], ["a", "b", "c"]]) →
        (∀ x ∈ [[("a" : String)], ["a", "b"], ["a", "b", "c"]], d <+: x → x ≠ d →
          x ∉ fs2) →
        d ∉ fs2) :=
  rmEmptyDirs_spec [["a"], ["a", "b"], ["a", "b", "c"]] ["a", "b", "c"] ["a"]
    (by decide) (by decide)

/-- Counterexample to C7 as stated: with `leafDir = baseDir`, the initial
`os.Remove(leafDir)` deletes `baseDir` itself (the loop guard protects only
the ancestors). -/
theorem rmEmptyDirs_removes_base_counterexample :
    rmEmptyDirs [["b"]] ["b"] ["b"] = Except.ok [] ∧
    (["b"] : List String) ∈ [[("b" : String)]] := by
  constructor
  · rfl
  · decide

/-! ## C8: compress / decompress -/

/-- The running Adler-32 checksum zlib appends to every stream
(RFC 1950): `a` starts at 1 and `b` at 0, each is updated per byte mod
65521, and the value is `b * 65536 + a`. -/
def adler32 (data : List Nat) : Nat :=
  let s := data.foldl
    (fun (ab : Nat × Nat) d =>
      ((ab.1 + d % 256) % 65521, (ab.2 + ab.1 + d % 256) % 65521)) (1, 0)
  s.2 * 65536 + s.1

/-- Big-endian 4-byte encoding used for the Adler-32 trailer. -/
def be4 (n : Nat) : List Nat :=
  [n / 16777216 % 256, n / 65536 % 256, n / 256 % 256, n % 256]

/-- Modelled from the spec: `zlib.NewWriterLevel(&b, zlib.BestCompression)`
followed by `Write`/`Close` produces an RFC 1950 stream: the two header
bytes (`0x78 0xDA` for best compression), a deflate body that losslessly
encodes the input, and the Adler-32 checksum of the uncompressed bytes,
big-endian.  The deflate body is modelled by the byte-faithful identity
coding (stored blocks); what matters for the program is only that the body
determines the input exactly. -/
def zlibDeflate (data : List Nat) : List Nat :=
  [120, 218] ++ data.map (fun x => x % 256) ++
    be4 (adler32 (data.map (fun x => x % 256)))

/-- Modelled from the spec: `zlib.NewReader` + `ReadFrom` check the
2-byte header, decode the deflate body back to the original bytes, and
verify the trailing Adler-32 checksum, failing on any malformed stream. -/
def zlibInflate (s : List Nat) : Option (List Nat) :=
  if s.take 2 = [120, 218] ∧ 6 ≤ s.length then
    if (s.drop 2).drop ((s.drop 2).length - 4) =
        be4 (adler32 ((s.drop 2).take ((s.drop 2).length - 4))) then
      some ((s.drop 2).take ((s.drop 2).length - 4))
    else none
  else none

/-- `compress(data)`: write `data` through a best-compression zlib writer
into a buffer.  Writing to a `bytes.Buffer` cannot fail, and
`zlib.NewWriterLevel` only rejects invalid levels, so no error path is
reachable. -/
def compress (data : List Nat) : Except String (List Nat) :=
  Except.ok (zlibDeflate data)

/-- `decompress(compressed)`: read the stream back through `zlib.NewReader`;
a malformed stream surfaces as the reader's error. -/
def decompress (compressed : List Nat) : Except String (List Nat) :=
  match zlibInflate compressed with
  | some data => Except.ok data
  | none => Except.error "zlib: invalid stream"

theorem zlibInflate_zlibDeflate (data : List Nat) (h : ∀ x ∈ data, x < 256) :
    zlibInflate (zlibDeflate data) = some data := by
  have hmap : data.map (fun x => x % 256) = data := by
    conv_rhs => rw [← List.map_id data]
    exact List.map_congr_left (fun x hx => Nat.mod_eq_of_lt (h x hx))
  unfold zlibDeflate zlibInflate
  rw [hmap]
  have hd2 : (([120, 218] ++ data ++ be4 (adler32 data)).drop 2 : List Nat) =
      data ++ be4 (adler32 data) := by
    rw [List.append_assoc]
    rfl
  have hlen : (data ++ be4 (adler32 data)).length = data.length + 4 := by
    rw [List.length_append]
    rfl
  have hbe : (be4 (adler32 data)).length = data.length + 4 - data.length := by
    simp [be4]
  have htk : (data ++ be4 (adler32 data)).take (data.length + 4 - 4) = data := by
    have h4 : data.length + 4 - 4 = data.length := by omega
    rw [h4]
    exact List.take_left' rfl
  have hdr : (data ++ be4 (adler32 data)).drop (data.length + 4 - 4) =
      be4 (adler32 data) := by
    have h4 : data.length + 4 - 4 = data.length := by omega
    rw [h4]
    exact List.drop_left' rfl
  rw [if_pos, if_pos]
  · rw [hd2, hlen, htk]
  · rw [hd2, hlen, htk, hdr]
  · constructor
    · rfl
    · rw [List.append_assoc, List.length_append, List.length_append]
      simp [be4]
      omega

/-- C8 (spec-modelled zlib): the round trip through `compress` and
`decompress` is the identity on byte slices. -/
theorem decompress_compress (data : List Nat) (h : ∀ x ∈ data, x < 256) :
    ∃ c : List Nat, compress data = Except.ok c ∧ decompress c = Except.ok data := by
  refine ⟨zlibDeflate data, rfl, ?_⟩
  unfold decompress
  rw [zlibInflate_zlibDeflate data h]

theorem decompress_compress_witness :
    ∃ c : List Nat, compress [119, 114, 0, 255] = Except.ok c ∧
      decompress c = Except.ok [119, 114, 0, 255] :=
  decompress_compress [119, 114, 0, 255] (by decide)
